import Mathlib

/-!
# Verification of the Spectra steno lexer search engine

A shallow embedding of `spectra_lexer/steno/lexer/base.py` (`StenoLexer`):
the stack-based backtracking search `_generate_maps`, the query façade
(`query`, `query_product`, `query_all`, `_gather_results`), and the
collaborating pieces that the lexer module imports.

The collaborators `StenoKeys` (`keys.py`), `LexerRuleMatcher` (`match.py`),
`LexerResult` (`results.py`) and `RuleMapItem` (`rules.py`) are not part of
the available source tree; they are modelled from the specification
(sections 3, 4.1, 4.3 and 4.5), as indicated on each definition.

Python `str.find` (which returns `-1` when the pattern is absent) and
negative-index slicing are modelled faithfully over `Int`.
-/

set_option maxHeartbeats 1000000

namespace Spectra

/-- A steno key is one character of the key string. -/
abbrev Key := Char

/-- `StenoKeys`: the parsed, ordered key string of one stroke. -/
abbrev StenoKeys := List Key

/-- The set of recognized steno key characters.
    Modelled from the spec: the `StenoKeys` class is missing from the source;
    §3 fixes only that tokens come from a fixed alphabet. -/
def KEY_CHARS : List Char :=
  ['S', 'T', 'K', 'P', 'W', 'H', 'R', 'A', 'O', '*', 'E', 'U',
   'F', 'B', 'L', 'G', 'D', 'Z', '-']

/-- Modelled from the spec: `StenoKeys.cleanse_from_rtfcre` (`keys.py` is
    missing from the source).  §4.1: `cleanse` never fails on malformed
    input — unrecognized characters are dropped, recognized ones kept. -/
def StenoKeys.cleanse_from_rtfcre (s : List Char) : StenoKeys :=
  s.filter (fun c => KEY_CHARS.contains c)

/-- Modelled from the spec (and from `utils.str_without`, which is in the
    source): `StenoKeys.without` removes each key of `ks` from `s`,
    one occurrence each, starting from the left. -/
def StenoKeys.without (s : StenoKeys) (ks : List Key) : StenoKeys :=
  ks.foldl (fun acc k => acc.erase k) s

/-- A steno rule.  Modelled from the spec (`rules.py` missing): a rule
    carries its own key pattern and letter pattern (§3); the name, flags and
    child rulemap play no part in the search engine. -/
structure Rule where
  keys : List Key
  letters : List Char
  deriving DecidableEq, Repr

/-- `RuleMapItem`: an immutable triple `(rule, start_offset, length)`
    indexing into the word being decomposed.  Modelled from the spec
    (`rules.py` missing).  The offset is an `Int` because the engine
    computes it as `wordptr + i` where `i` is a Python `str.find` result. -/
structure RuleMapItem where
  rule : Rule
  start : Int
  length : Nat
  deriving DecidableEq, Repr

/-- One stack entry of `_generate_maps`: `(test_keys, test_word, wordptr,
    lc, rulemap)` — keys unmatched, letters unmatched/skipped, position in
    the full word, number of letters matched, and the current rule map. -/
structure Frame where
  testKeys : StenoKeys
  testWord : List Char
  wordptr : Int
  lc : Nat
  rulemap : List RuleMapItem
  deriving DecidableEq, Repr

/-- A candidate result yielded by `_generate_maps`: the rule map together
    with the keys still unmatched at production time. -/
abbrev Res := List RuleMapItem × StenoKeys

/-- The rule matcher interface: `match_rules(test_keys, test_word, keys,
    word, rulemap)` yields an ordered list of candidate rules.
    Modelled from the spec (`match.py` missing from the source);
    the engine treats it as an opaque callable. -/
abbrev Matcher :=
  StenoKeys → List Char → StenoKeys → List Char → List RuleMapItem → List Rule

/-- First index at which `pat` occurs as a contiguous sublist of `hay`,
    if any (the positive half of Python `str.find`). -/
def findSub : List Char → List Char → Option Nat
  | [], pat => if pat.isPrefixOf [] then some 0 else none
  | c :: t, pat =>
    if pat.isPrefixOf (c :: t) then some 0 else (findSub t pat).map (· + 1)

/-- Python `hay.find(pat)`: the first occurrence index, or `-1`. -/
def pyFind (hay pat : List Char) : Int :=
  match findSub hay pat with
  | some i => (i : Int)
  | none => -1

/-- Python `s[k:]` for an `Int` index `k`: a negative index counts from the
    end, clamped at the start of the string. -/
def pyDrop (s : List Char) (k : Int) : List Char :=
  if 0 ≤ k then s.drop k.toNat else s.drop ((s.length : Int) + k).toNat

/-- The yield performed at the top of the `_generate_maps` loop body:
    `if rulemap: if not test_keys or not self.need_all_keys: yield`. -/
def frameYield (needAll : Bool) (fr : Frame) : List Res :=
  if fr.rulemap.isEmpty then []
  else if fr.testKeys.isEmpty || !needAll then [(fr.rulemap, fr.testKeys)]
  else []

/-- `space_left = len(test_word) - (best_letters - lc)`, in Python integer
    arithmetic. -/
def spaceLeft (best : Nat) (fr : Frame) : Int :=
  (fr.testWord.length : Int) - ((best : Int) - (fr.lc : Int))

/-- The frame pushed for one candidate rule `r`: rule map extended with
    `RuleMapItem(r, wordptr + i, len(r.letters))`, keys and matched span
    removed, pointer and letter count advanced. -/
def mkChild (fr : Frame) (r : Rule) : Frame :=
  let i := pyFind fr.testWord r.letters
  let wordLen := r.letters.length
  { testKeys := StenoKeys.without fr.testKeys r.keys
    testWord := pyDrop fr.testWord ((wordLen : Int) + i)
    wordptr := fr.wordptr + wordLen + i
    lc := fr.lc + wordLen
    rulemap := fr.rulemap ++ [⟨r, fr.wordptr + i, wordLen⟩] }

/-- The Python `for r in match_rules(...)` loop: each surviving candidate is
    appended to the stack (we keep the stack top at the list head, so an
    append becomes a cons).  With `prune = true` this is the source code;
    `prune = false` drops the `space_left < i` check (§ "pruning
    transparency"). -/
def expandStack (m : Matcher) (prune : Bool) (keys : StenoKeys)
    (word : List Char) (best : Nat) (fr : Frame) (rest : List Frame) :
    List Frame :=
  (m fr.testKeys fr.testWord keys word fr.rulemap).foldl
    (fun s r =>
      if prune && decide (spaceLeft best fr < pyFind fr.testWord r.letters)
      then s
      else mkChild fr r :: s)
    rest

/-- The `while stack:` loop of `StenoLexer._generate_maps`, run on explicit
    fuel (the Python loop need not terminate for an arbitrary matcher).
    Returns `none` if the fuel is exhausted before the stack empties, and
    otherwise the list of yielded candidate results in generator order
    together with the final `best_letters`. -/
def genMapsAux (m : Matcher) (needAll prune : Bool) (keys : StenoKeys)
    (word : List Char) : Nat → Nat → List Frame → Option (List Res × Nat)
  | _, best, [] => some ([], best)
  | 0, _, _ :: _ => none
  | fuel + 1, best, fr :: rest =>
    if fr.testKeys.isEmpty then
      (genMapsAux m needAll prune keys word fuel (max best fr.lc) rest).map
        (fun p => (frameYield needAll fr ++ p.1, p.2))
    else
      (genMapsAux m needAll prune keys word fuel best
          (expandStack m prune keys word best fr rest)).map
        (fun p => (frameYield needAll fr ++ p.1, p.2))

/-- `StenoLexer._generate_maps(keys, word)`: initial stack
    `[(keys, word.lower(), 0, 0, [])]`, results in yield order.
    `prune = true` is the source; `prune = false` is the exhaustive variant
    used to state pruning transparency. -/
def generateMaps (m : Matcher) (needAll prune : Bool) (fuel : Nat)
    (keys : StenoKeys) (word : List Char) : Option (List Res) :=
  (genMapsAux m needAll prune keys word fuel 0
      [⟨keys, word.map Char.toLower, 0, 0, []⟩]).map Prod.fst

/-- `LexerResult(rulemap, test_keys, keys, word)`: a candidate rule map with
    all parameters required for ranking.  Modelled from the spec
    (`results.py` missing). -/
structure LexerResult where
  rulemap : List RuleMapItem
  testKeys : StenoKeys
  keys : StenoKeys
  word : List Char
  deriving DecidableEq, Repr

/-- Total matched-letter count of a rule map: the sum of its item lengths. -/
def mapLetters (rm : List RuleMapItem) : Nat :=
  (rm.map RuleMapItem.length).sum

/-- The ranking key of §4.5, highest first under the lexicographic order:
    (a) zero remaining unmatched keys, (b) higher matched-letter count,
    (c) fewer rule-map items.  Modelled from the spec (`results.py`
    missing). -/
def rankKey (rm : List RuleMapItem) (testKeys : StenoKeys) :
    Int ×ₗ Int ×ₗ Int :=
  toLex ((if testKeys.isEmpty then 1 else 0 : Int),
    toLex ((mapLetters rm : Int), -(rm.length : Int)))

/-- The ranking key of a `LexerResult`. -/
def LexerResult.key (res : LexerResult) : Int ×ₗ Int ×ₗ Int :=
  rankKey res.rulemap res.testKeys

/-- One comparison step of the selection fold: a later result replaces the
    running best only when it ranks strictly higher, so the first-produced
    result wins ties (§4.5 (d)). -/
def pickBetter (acc x : LexerResult) : LexerResult :=
  if acc.key < x.key then x else acc

/-- The decomposition returned to the caller.  Modelled from the spec (§6):
    it exposes the rule map, the keys/word, whether the map is complete,
    and whether it is the synthetic fallback. -/
structure Decomposition where
  rulemap : List RuleMapItem
  keys : StenoKeys
  word : List Char
  complete : Bool
  isFallback : Bool
  deriving DecidableEq, Repr

/-- Modelled from the spec (§4.5): the synthetic single-item fallback
    decomposition spanning the entire original word/keys, built around a
    literal "unparsed" marker rule. -/
def mkFallback (keys : List Char) (word : List Char) : Decomposition :=
  { rulemap := [⟨⟨keys, word⟩, 0, word.length⟩]
    keys := keys
    word := word
    complete := false
    isFallback := true }

/-- The decomposition built from a selected search result. -/
def toDecomp (res : LexerResult) : Decomposition :=
  { rulemap := res.rulemap
    keys := res.keys
    word := res.word
    complete := res.testKeys.isEmpty
    isFallback := false }

/-- `LexerResult.best_rule(results, default)`.  Modelled from the spec
    (§4.5): empty input gives the fallback built from `default`; otherwise
    the fold selects the highest-ranked, first-produced result. -/
def best_rule (results : List LexerResult) (default : List Char × List Char) :
    Decomposition :=
  match results with
  | [] => mkFallback default.1 default.2
  | h :: t => toDecomp (t.foldl pickBetter h)

/-- `StenoLexer._gather_results(keys, word)`: cleanse the keys, run the
    search, and wrap each candidate with the ranking parameters. -/
def gatherResults (m : Matcher) (needAll : Bool) (fuel : Nat)
    (keys : List Char) (word : List Char) : Option (List LexerResult) :=
  let ck := StenoKeys.cleanse_from_rtfcre keys
  (generateMaps m needAll true fuel ck word).map
    (fun rs => rs.map (fun y => ⟨y.1, y.2, ck, word⟩))

/-- `StenoLexer.query(keys, word)`: the best rule for one translation, with
    the raw `(keys, word)` pair as the fallback default.  `none` only when
    the fuel is exhausted. -/
def query (m : Matcher) (needAll : Bool) (fuel : Nat)
    (keys word : List Char) : Option Decomposition :=
  (gatherResults m needAll fuel keys word).map
    (fun rs => best_rule rs (keys, word))

/-- `itertools.product(keys, words)` in list order. -/
def pyProduct (ks ws : List (List Char)) : List (List Char × List Char) :=
  ks.flatMap (fun k => ws.map (fun w => (k, w)))

/-- `StenoLexer.query_product(keys, words)`: gather results over every
    pairing and rank the union with `default = pairs[0]`.  The outer
    `Option` is fuel; the inner `Option` is `none` exactly when the Python
    code raises `IndexError` on `pairs[0]` (empty cross product). -/
def query_product (m : Matcher) (needAll : Bool) (fuel : Nat)
    (ks ws : List (List Char)) : Option (Option Decomposition) :=
  let pairs := pyProduct ks ws
  (pairs.mapM (fun p => gatherResults m needAll fuel p.1 p.2)).map
    (fun rss =>
      match pairs with
      | [] => none
      | p0 :: _ => some (best_rule rss.flatten (p0.1, p0.2)))

/-- The lexer's mutable component state: the `need_all_keys` config option
    (`Option("config", "lexer:need_all_keys", False, ...)`). -/
structure LexerState where
  need_all_keys : Bool
  deriving DecidableEq, Repr

/-- The configured default of the `need_all_keys` option is `False`. -/
def defaultLexerState : LexerState := ⟨false⟩

/-- A single query read through the component state. -/
def queryWithState (m : Matcher) (st : LexerState) (fuel : Nat)
    (keys word : List Char) : Option Decomposition :=
  query m st.need_all_keys fuel keys word

/-- `StenoLexer.query_all(items, filter_in, filter_out)`: sets
    `self.need_all_keys = True`, then maps `self.query` over the filtered
    items and filters the results.  Returns the result list together with
    the component state left behind. -/
def query_all (m : Matcher) (_st : LexerState) (fuel : Nat)
    (items : List (List Char × List Char))
    (filterIn : List Char × List Char → Bool)
    (filterOut : Decomposition → Bool) :
    Option (List Decomposition) × LexerState :=
  let st' : LexerState := ⟨true⟩
  (((items.filter filterIn).mapM
      (fun p => queryWithState m st' fuel p.1 p.2)).map
    (fun rs => rs.filter filterOut), st')

/-- The Matcher contract of §4.3 that the invariants need: every candidate
    rule's letter pattern occurs somewhere in the remaining word. -/
def OccursMatcher (m : Matcher) : Prop :=
  ∀ tk tw fk fw rm, ∀ r ∈ m tk tw fk fw rm, (findSub tw r.letters).isSome

/-- The full Matcher/repository contract (§4.3 and §4.4): candidates have a
    non-empty key set drawn from the remaining keys, and a letter pattern
    occurring in the remaining word. -/
def GoodMatcher (m : Matcher) : Prop :=
  ∀ tk tw fk fw rm, ∀ r ∈ m tk tw fk fw rm,
    r.keys ≠ [] ∧ (∀ k ∈ r.keys, k ∈ tk) ∧ (findSub tw r.letters).isSome

/-- The primitive rules `T→t`, `E→e`, `S→s` of the spec's §8 example. -/
def demoRules : List Rule :=
  [⟨['T'], ['t']⟩, ⟨['E'], ['e']⟩, ⟨['S'], ['s']⟩]

/-- A small concrete repository: the demo rules filtered down to the ones
    legal for the current frame, exactly as the Matcher contract demands. -/
def demoMatcher : Matcher := fun tk tw _ _ _ =>
  demoRules.filter (fun r =>
    !r.keys.isEmpty && r.keys.all (fun k => tk.contains k) &&
      (findSub tw r.letters).isSome)

/-- The search potential of a frame: matched letters plus letters still
    available.  Strictly bounds the matched-letter count of every result
    reachable from the frame. -/
def phi (fr : Frame) : Nat := fr.lc + fr.testWord.length

/-- Well-formedness of a frame: the matched-letter counter agrees with the
    rule map. -/
def FrameWF (fr : Frame) : Prop := fr.lc = mapLetters fr.rulemap

/-- The rule-map chain invariant: starting from lower bound `lo`, each
    item's span begins no earlier than the end of the previous one. -/
def chainOK : Int → List RuleMapItem → Prop
  | _, [] => True
  | lo, it :: rest => lo ≤ it.start ∧ chainOK (it.start + it.length) rest

/-- The end position of a rule-map chain (the lower bound if empty). -/
def chainEnd : Int → List RuleMapItem → Int
  | lo, [] => lo
  | _, it :: rest => chainEnd (it.start + it.length) rest

/-- `us` is `ps` with extra elements interleaved, each extra element
    satisfying `P`. -/
inductive Interleaved {α : Type} (P : α → Prop) : List α → List α → Prop
  | nil : Interleaved P [] []
  | keep (y : α) {us ps : List α} :
      Interleaved P us ps → Interleaved P (y :: us) (y :: ps)
  | extra (y : α) {us ps : List α} :
      P y → Interleaved P us ps → Interleaved P (y :: us) ps

/-- Stack correspondence between the exhaustive run and the pruning run:
    the pruning run's stack is a subsequence of the exhaustive run's, every
    frame dropped by pruning has potential strictly below the current
    `best_letters`, and every frame is well-formed. -/
inductive StackRel (b : Nat) : List Frame → List Frame → Prop
  | nil : StackRel b [] []
  | keep (fr : Frame) {su sp : List Frame} :
      FrameWF fr → StackRel b su sp → StackRel b (fr :: su) (fr :: sp)
  | drop (fr : Frame) {su sp : List Frame} :
      FrameWF fr → phi fr < b → StackRel b su sp → StackRel b (fr :: su) sp

end Spectra


namespace Spectra

/-! ### Substring search: `findSub` computes the first occurrence index -/

theorem findSub_isPrefixOf :
    ∀ (hay pat : List Char) (i : Nat), findSub hay pat = some i →
      pat.isPrefixOf (hay.drop i) = true := by
  intro hay
  induction hay with
  | nil =>
    intro pat i h
    rw [findSub] at h
    split at h
    · next hp => cases h; simpa using hp
    · cases h
  | cons c t ih =>
    intro pat i h
    rw [findSub] at h
    split at h
    · next hp => cases h; simpa using hp
    · rcases Option.map_eq_some'.mp h with ⟨j, hj, rfl⟩
      simpa using ih pat j hj

theorem findSub_first :
    ∀ (hay pat : List Char) (i : Nat), findSub hay pat = some i →
      ∀ j < i, pat.isPrefixOf (hay.drop j) = false := by
  intro hay
  induction hay with
  | nil =>
    intro pat i h
    rw [findSub] at h
    split at h
    · cases h; omega
    · cases h
  | cons c t ih =>
    intro pat i h
    rw [findSub] at h
    split at h
    · cases h; omega
    · next hp =>
      rcases Option.map_eq_some'.mp h with ⟨k, hk, rfl⟩
      intro j hj
      match j with
      | 0 =>
        simp only [List.drop_zero]
        cases hb : pat.isPrefixOf (c :: t)
        · rfl
        · exact absurd hb hp
      | j' + 1 => simpa using ih pat k hk j' (by omega)

theorem findSub_le :
    ∀ (hay pat : List Char) (i : Nat), findSub hay pat = some i →
      i + pat.length ≤ hay.length := by
  intro hay
  induction hay with
  | nil =>
    intro pat i h
    rw [findSub] at h
    split at h
    · next hp =>
      cases h
      simpa using (List.isPrefixOf_iff_prefix.mp hp).length_le
    · cases h
  | cons c t ih =>
    intro pat i h
    rw [findSub] at h
    split at h
    · next hp =>
      cases h
      simpa using (List.isPrefixOf_iff_prefix.mp hp).length_le
    · rcases Option.map_eq_some'.mp h with ⟨k, hk, rfl⟩
      have := ih pat k hk
      simp only [List.length_cons]
      omega

theorem findSub_isSome_of_isPrefixOf :
    ∀ (hay pat : List Char) (j : Nat), pat.isPrefixOf (hay.drop j) = true →
      (findSub hay pat).isSome := by
  intro hay
  induction hay with
  | nil =>
    intro pat j h
    simp only [List.drop_nil] at h
    rw [findSub, if_pos h]
    rfl
  | cons c t ih =>
    intro pat j h
    rw [findSub]
    split
    · rfl
    · next hp =>
      match j with
      | 0 => exact absurd h (by simpa using hp)
      | j' + 1 =>
        have := ih pat j' (by simpa using h)
        rcases Option.isSome_iff_exists.mp this with ⟨k, hk⟩
        simp [hk]

/-! ### Key removal: `without` under the Matcher contract -/

theorem length_erase_le (l : List Key) (a : Key) :
    (l.erase a).length ≤ l.length := by
  rw [List.length_erase]
  split <;> omega

theorem length_without_le (s : StenoKeys) (ks : List Key) :
    (StenoKeys.without s ks).length ≤ s.length := by
  induction ks generalizing s with
  | nil => simp [StenoKeys.without]
  | cons k kt ih =>
    calc (StenoKeys.without s (k :: kt)).length
        = (StenoKeys.without (s.erase k) kt).length := rfl
      _ ≤ (s.erase k).length := ih (s.erase k)
      _ ≤ s.length := length_erase_le s k

theorem length_without_lt (s : StenoKeys) (ks : List Key)
    (hne : ks ≠ []) (hsub : ∀ k ∈ ks, k ∈ s) :
    (StenoKeys.without s ks).length < s.length := by
  match ks, hne with
  | k :: kt, _ =>
    have hk : k ∈ s := hsub k (by simp)
    have h1 : (s.erase k).length = s.length - 1 := by
      rw [List.length_erase, if_pos hk]
    have h2 : (StenoKeys.without s (k :: kt)).length
        ≤ (s.erase k).length := length_without_le (s.erase k) kt
    have : 0 < s.length := List.length_pos_of_mem hk
    omega

/-! ### Child frames under a found pattern -/

theorem mkChild_found {fr : Frame} {r : Rule} {i : Nat}
    (h : findSub fr.testWord r.letters = some i) :
    mkChild fr r =
      { testKeys := StenoKeys.without fr.testKeys r.keys
        testWord := fr.testWord.drop (r.letters.length + i)
        wordptr := fr.wordptr + r.letters.length + i
        lc := fr.lc + r.letters.length
        rulemap := fr.rulemap ++
          [⟨r, fr.wordptr + (i : Int), r.letters.length⟩] } := by
  have hfind : pyFind fr.testWord r.letters = (i : Int) := by
    rw [pyFind, h]
  rw [mkChild, hfind]
  have hnn : (0 : Int) ≤ (r.letters.length : Int) + (i : Int) := by
    positivity
  have htn : (((r.letters.length : Int)) + (i : Int)).toNat
      = r.letters.length + i := by omega
  simp only [pyDrop, if_pos hnn, htn]

theorem phi_mkChild {fr : Frame} {r : Rule} {i : Nat}
    (h : findSub fr.testWord r.letters = some i) :
    phi (mkChild fr r) + i = phi fr := by
  have hle := findSub_le fr.testWord r.letters i h
  rw [mkChild_found h]
  simp only [phi, List.length_drop]
  omega

theorem mapLetters_append (rm : List RuleMapItem) (it : RuleMapItem) :
    mapLetters (rm ++ [it]) = mapLetters rm + it.length := by
  simp [mapLetters]

theorem wf_mkChild {fr : Frame} {r : Rule} {i : Nat}
    (h : findSub fr.testWord r.letters = some i) (hw : FrameWF fr) :
    FrameWF (mkChild fr r) := by
  rw [FrameWF, mkChild_found h]
  simp only [mapLetters_append]
  rw [FrameWF] at hw
  omega

end Spectra

namespace Spectra

/-! ### Structure of one stack expansion -/

/-- The per-candidate keep test of the expansion loop. -/
def keepCand (prune : Bool) (best : Nat) (fr : Frame) (r : Rule) : Bool :=
  !(prune && decide (spaceLeft best fr < pyFind fr.testWord r.letters))

theorem expandStack_eq (m : Matcher) (prune : Bool) (keys : StenoKeys)
    (word : List Char) (best : Nat) (fr : Frame) (rest : List Frame) :
    expandStack m prune keys word best fr rest =
      (((m fr.testKeys fr.testWord keys word fr.rulemap).filter
          (keepCand prune best fr)).map (mkChild fr)).reverse ++ rest := by
  rw [expandStack]
  generalize m fr.testKeys fr.testWord keys word fr.rulemap = cands
  induction cands generalizing rest with
  | nil => simp
  | cons r cs ih =>
    simp only [List.foldl_cons, List.filter_cons]
    by_cases hk : keepCand prune best fr r
    · rw [if_pos hk]
      rw [keepCand, Bool.not_eq_true'] at hk
      rw [if_neg (by simp [hk])]
      rw [ih (mkChild fr r :: rest)]
      simp
    · rw [if_neg hk]
      rw [keepCand, Bool.not_eq_true', Bool.not_eq_false] at hk
      rw [if_pos (by simp [hk])]
      exact ih rest

theorem expandStack_append (m : Matcher) (prune : Bool) (keys : StenoKeys)
    (word : List Char) (best : Nat) (fr : Frame) (rest tail : List Frame) :
    expandStack m prune keys word best fr (rest ++ tail) =
      expandStack m prune keys word best fr rest ++ tail := by
  rw [expandStack_eq, expandStack_eq, List.append_assoc]

theorem mem_expandStack {m : Matcher} {prune : Bool} {keys : StenoKeys}
    {word : List Char} {best : Nat} {fr : Frame} {rest : List Frame}
    {x : Frame} (hx : x ∈ expandStack m prune keys word best fr rest) :
    x ∈ rest ∨
      ∃ r ∈ m fr.testKeys fr.testWord keys word fr.rulemap,
        x = mkChild fr r := by
  rw [expandStack_eq] at hx
  rcases List.mem_append.mp hx with h | h
  · rcases List.mem_reverse.mp h with h
    rcases List.mem_map.mp h with ⟨r, hr, rfl⟩
    exact Or.inr ⟨r, (List.mem_filter.mp hr).1, rfl⟩
  · exact Or.inl h

/-! ### Basic equations and fuel monotonicity of the search loop -/

theorem genMapsAux_nil (m : Matcher) (na pr : Bool) (k : StenoKeys)
    (w : List Char) (f b : Nat) :
    genMapsAux m na pr k w f b [] = some ([], b) := by
  cases f <;> rfl

theorem genMapsAux_cons (m : Matcher) (na pr : Bool) (k : StenoKeys)
    (w : List Char) (f b : Nat) (fr : Frame) (rest : List Frame) :
    genMapsAux m na pr k w (f + 1) b (fr :: rest) =
      if fr.testKeys.isEmpty then
        (genMapsAux m na pr k w f (max b fr.lc) rest).map
          (fun p => (frameYield na fr ++ p.1, p.2))
      else
        (genMapsAux m na pr k w f b
            (expandStack m pr k w b fr rest)).map
          (fun p => (frameYield na fr ++ p.1, p.2)) := rfl

theorem genMapsAux_zero_cons (m : Matcher) (na pr : Bool) (k : StenoKeys)
    (w : List Char) (b : Nat) (fr : Frame) (rest : List Frame) :
    genMapsAux m na pr k w 0 b (fr :: rest) = none := rfl

theorem genMapsAux_mono {m : Matcher} {na pr : Bool} {k : StenoKeys}
    {w : List Char} :
    ∀ {f b s x}, genMapsAux m na pr k w f b s = some x →
      genMapsAux m na pr k w (f + 1) b s = some x := by
  intro f
  induction f with
  | zero =>
    intro b s x h
    match s with
    | [] => rw [genMapsAux_nil] at h ⊢; exact h
    | fr :: rest => rw [genMapsAux_zero_cons] at h; cases h
  | succ f ih =>
    intro b s x h
    match s with
    | [] => rw [genMapsAux_nil] at h ⊢; exact h
    | fr :: rest =>
      rw [genMapsAux_cons] at h ⊢
      by_cases hemp : fr.testKeys.isEmpty
      · rw [if_pos hemp] at h ⊢
        rcases Option.map_eq_some'.mp h with ⟨p, hp, hpe⟩
        rw [ih hp, Option.map_some']
        exact hpe ▸ rfl
      · rw [if_neg hemp] at h ⊢
        rcases Option.map_eq_some'.mp h with ⟨p, hp, hpe⟩
        rw [ih hp, Option.map_some']
        exact hpe ▸ rfl

theorem genMapsAux_mono_le {m : Matcher} {na pr : Bool} {k : StenoKeys}
    {w : List Char} {f g b : Nat} {s : List Frame} {x : List Res × Nat}
    (hfg : f ≤ g) (h : genMapsAux m na pr k w f b s = some x) :
    genMapsAux m na pr k w g b s = some x := by
  induction hfg with
  | refl => exact h
  | step _ ih => exact genMapsAux_mono ih

theorem genMapsAux_append {m : Matcher} {na pr : Bool} {k : StenoKeys}
    {w : List Char} :
    ∀ {f1 : Nat} {b s1 o1 b1} {f2 : Nat} {s2 o2 b2},
      genMapsAux m na pr k w f1 b s1 = some (o1, b1) →
      genMapsAux m na pr k w f2 b1 s2 = some (o2, b2) →
      genMapsAux m na pr k w (f1 + f2) b (s1 ++ s2) = some (o1 ++ o2, b2) := by
  intro f1
  induction f1 with
  | zero =>
    intro b s1 o1 b1 f2 s2 o2 b2 h1 h2
    match s1 with
    | [] =>
      rw [genMapsAux_nil] at h1
      cases h1
      simpa using h2
    | fr :: rest => rw [genMapsAux_zero_cons] at h1; cases h1
  | succ f ih =>
    intro b s1 o1 b1 f2 s2 o2 b2 h1 h2
    match s1 with
    | [] =>
      rw [genMapsAux_nil] at h1
      cases h1
      simpa using genMapsAux_mono_le (Nat.le_add_left f2 (f + 1)) h2
    | fr :: rest =>
      rw [genMapsAux_cons] at h1
      have hstep : f + 1 + f2 = (f + f2) + 1 := by omega
      rw [hstep, List.cons_append, genMapsAux_cons]
      by_cases hemp : fr.testKeys.isEmpty
      · rw [if_pos hemp] at h1 ⊢
        rcases Option.map_eq_some'.mp h1 with ⟨p, hp, hpe⟩
        cases hpe
        rw [ih hp h2, Option.map_some', List.append_assoc]
      · rw [if_neg hemp] at h1 ⊢
        rw [expandStack_append]
        rcases Option.map_eq_some'.mp h1 with ⟨p, hp, hpe⟩
        cases hpe
        rw [ih hp h2, Option.map_some', List.append_assoc]

end Spectra

namespace Spectra

/-! ### `need_all_keys` only filters the yields -/

theorem frameYield_true (fr : Frame) :
    frameYield true fr = (frameYield false fr).filter (fun y => y.2.isEmpty) := by
  by_cases hrm : fr.rulemap.isEmpty
  · simp [frameYield, hrm]
  · by_cases htk : fr.testKeys.isEmpty
    · simp [frameYield, hrm, htk]
    · simp [frameYield, hrm, htk]

theorem genMapsAux_needAll {m : Matcher} {pr : Bool} {k : StenoKeys}
    {w : List Char} :
    ∀ {f b s o b'}, genMapsAux m false pr k w f b s = some (o, b') →
      genMapsAux m true pr k w f b s =
        some (o.filter (fun y => y.2.isEmpty), b') := by
  intro f
  induction f with
  | zero =>
    intro b s o b' h
    match s with
    | [] =>
      rw [genMapsAux_nil] at h
      cases h
      rw [genMapsAux_nil]
      simp
    | fr :: rest => rw [genMapsAux_zero_cons] at h; cases h
  | succ f ih =>
    intro b s o b' h
    match s with
    | [] =>
      rw [genMapsAux_nil] at h
      cases h
      rw [genMapsAux_nil]
      simp
    | fr :: rest =>
      rw [genMapsAux_cons] at h ⊢
      by_cases hemp : fr.testKeys.isEmpty
      · rw [if_pos hemp] at h ⊢
        rcases Option.map_eq_some'.mp h with ⟨p, hp, hpe⟩
        cases hpe
        rw [ih hp, Option.map_some']
        simp [frameYield_true, List.filter_append]
      · rw [if_neg hemp] at h ⊢
        rcases Option.map_eq_some'.mp h with ⟨p, hp, hpe⟩
        cases hpe
        rw [ih hp, Option.map_some']
        simp [frameYield_true, List.filter_append]

/-! ### Termination of the search loop under the Matcher contract (§4.4) -/

theorem genMapsAux_total {m : Matcher} (hm : GoodMatcher m) (na pr : Bool)
    (k : StenoKeys) (w : List Char) :
    ∀ (n : Nat) (s : List Frame), (∀ fr ∈ s, fr.testKeys.length ≤ n) →
      ∀ b, ∃ f o b', genMapsAux m na pr k w f b s = some (o, b') := by
  intro n
  induction n using Nat.strong_induction_on with
  | _ n ihn =>
    intro s
    induction s with
    | nil =>
      intro _ b
      exact ⟨0, [], b, genMapsAux_nil m na pr k w 0 b⟩
    | cons fr rest ihs =>
      intro hb b
      by_cases hemp : fr.testKeys.isEmpty
      · obtain ⟨f2, o2, b2, h2⟩ :=
          ihs (fun g hg => hb g (List.mem_cons_of_mem _ hg)) (max b fr.lc)
        refine ⟨f2 + 1, frameYield na fr ++ o2, b2, ?_⟩
        rw [genMapsAux_cons, if_pos hemp, h2, Option.map_some']
      · have hlen : 1 ≤ fr.testKeys.length := by
          cases hk : fr.testKeys
          · rw [hk] at hemp; simp at hemp
          · simp
        have hn : fr.testKeys.length ≤ n := hb fr (List.mem_cons_self fr rest)
        have hchild : ∀ g ∈ expandStack m pr k w b fr [],
            g.testKeys.length ≤ n - 1 := by
          intro g hg
          rcases mem_expandStack hg with hgr | ⟨r, hr, rfl⟩
          · cases hgr
          · obtain ⟨hne, hsub, _⟩ := hm _ _ _ _ _ r hr
            have := length_without_lt fr.testKeys r.keys hne hsub
            have hck : (mkChild fr r).testKeys
                = StenoKeys.without fr.testKeys r.keys := rfl
            rw [hck]
            omega
        obtain ⟨f1, o1, b1, h1⟩ :=
          ihn (n - 1) (by omega) (expandStack m pr k w b fr []) hchild b
        obtain ⟨f2, o2, b2, h2⟩ :=
          ihs (fun g hg => hb g (List.mem_cons_of_mem _ hg)) b1
        have hfr : genMapsAux m na pr k w (f1 + 1) b [fr]
            = some (frameYield na fr ++ o1, b1) := by
          rw [genMapsAux_cons, if_neg hemp]
          have : expandStack m pr k w b fr ([] : List Frame)
              = expandStack m pr k w b fr [] := rfl
          rw [h1, Option.map_some']
        have := genMapsAux_append hfr h2
        exact ⟨f1 + 1 + f2, (frameYield na fr ++ o1) ++ o2, b2, this⟩

theorem generateMaps_total {m : Matcher} (hm : GoodMatcher m) (na pr : Bool)
    (k : StenoKeys) (w : List Char) :
    ∃ f o, generateMaps m na pr f k w = some o := by
  obtain ⟨f, o, b', h⟩ := genMapsAux_total hm na pr k w k.length
    [⟨k, w.map Char.toLower, 0, 0, []⟩]
    (by intro fr hfr; cases List.mem_singleton.mp hfr; simp) 0
  exact ⟨f, o, by rw [generateMaps, h, Option.map_some']⟩

end Spectra

namespace Spectra

/-! ### Rule-map chain facts -/

theorem chainEnd_append (lo : Int) (rm : List RuleMapItem) (it : RuleMapItem) :
    chainEnd lo (rm ++ [it]) = it.start + it.length := by
  induction rm generalizing lo with
  | nil => rfl
  | cons hd tl ih => exact ih (hd.start + hd.length)

theorem chainOK_append {lo : Int} {rm : List RuleMapItem} {it : RuleMapItem}
    (hok : chainOK lo rm) (hend : chainEnd lo rm ≤ it.start) :
    chainOK lo (rm ++ [it]) := by
  induction rm generalizing lo with
  | nil => exact ⟨hend, trivial⟩
  | cons hd tl ih =>
    obtain ⟨h1, h2⟩ := hok
    exact ⟨h1, ih h2 hend⟩

theorem chainEnd_ge {lo : Int} {rm : List RuleMapItem} (hok : chainOK lo rm) :
    lo ≤ chainEnd lo rm := by
  induction rm generalizing lo with
  | nil => exact le_refl lo
  | cons hd tl ih =>
    obtain ⟨h1, h2⟩ := hok
    have := ih h2
    have hl : (0 : Int) ≤ hd.length := by positivity
    calc lo ≤ hd.start := h1
      _ ≤ hd.start + hd.length := by omega
      _ ≤ chainEnd (hd.start + hd.length) tl := ih h2
      _ = chainEnd lo (hd :: tl) := rfl

theorem chain_bounds {rm : List RuleMapItem} :
    ∀ {lo hi : Int}, chainOK lo rm → chainEnd lo rm ≤ hi →
      ∀ it ∈ rm, lo ≤ it.start ∧ it.start + it.length ≤ hi := by
  induction rm with
  | nil => intro lo hi _ _ it hit; cases hit
  | cons hd tl ih =>
    intro lo hi hok hend it hit
    obtain ⟨h1, h2⟩ := hok
    rcases List.mem_cons.mp hit with rfl | hmem
    · refine ⟨h1, ?_⟩
      calc (it.start + it.length : Int)
          ≤ chainEnd (it.start + it.length) tl := chainEnd_ge h2
        _ = chainEnd lo (it :: tl) := rfl
        _ ≤ hi := hend
    · have := ih h2 hend it hmem
      have hl : (0 : Int) ≤ hd.length := by positivity
      exact ⟨by omega, this.2⟩

/-! ### The span invariant of every frame reached by the search -/

/-- The frame invariant behind the Rule Map Item bounds: the rule map forms
    an ordered chain of spans that ends at or before the word pointer, and
    the pointer plus the remaining suffix spans the full word. -/
def InvFrame (w : List Char) (fr : Frame) : Prop :=
  chainOK 0 fr.rulemap ∧ chainEnd 0 fr.rulemap ≤ fr.wordptr ∧
    0 ≤ fr.wordptr ∧
    fr.wordptr + (fr.testWord.length : Int) = (w.length : Int)

theorem invFrame_mkChild {w : List Char} {fr : Frame} {r : Rule} {i : Nat}
    (hfind : findSub fr.testWord r.letters = some i)
    (hinv : InvFrame w fr) : InvFrame w (mkChild fr r) := by
  obtain ⟨hok, hend, hptr, hlen⟩ := hinv
  have hle := findSub_le fr.testWord r.letters i hfind
  rw [InvFrame, mkChild_found hfind]
  simp only [List.length_drop]
  refine ⟨?_, ?_, ?_, ?_⟩
  · refine chainOK_append hok ?_
    show chainEnd 0 fr.rulemap ≤ fr.wordptr + (i : Int)
    have : (0 : Int) ≤ (i : Int) := by positivity
    omega
  · rw [chainEnd_append]
    show fr.wordptr + (i : Int) + ((r.letters.length : Nat) : Int)
      ≤ fr.wordptr + (r.letters.length : Int) + (i : Int)
    omega
  · have : (0 : Int) ≤ (r.letters.length : Int) + (i : Int) := by positivity
    omega
  · have : (fr.testWord.length - (r.letters.length + i) : Nat)
        = fr.testWord.length - (r.letters.length + i) := rfl
    push_cast [Nat.cast_sub (by omega : r.letters.length + i ≤ fr.testWord.length)]
    omega

theorem genMapsAux_yields_inv {m : Matcher} {na pr : Bool} {k : StenoKeys}
    {w : List Char} (hocc : OccursMatcher m) :
    ∀ {f b s o b'}, genMapsAux m na pr k w f b s = some (o, b') →
      (∀ fr ∈ s, InvFrame w fr) →
      ∀ y ∈ o, chainOK 0 y.1 ∧ chainEnd 0 y.1 ≤ (w.length : Int) := by
  intro f
  induction f with
  | zero =>
    intro b s o b' h hs
    match s with
    | [] => rw [genMapsAux_nil] at h; cases h; intro y hy; cases hy
    | fr :: rest => rw [genMapsAux_zero_cons] at h; cases h
  | succ f ih =>
    intro b s o b' h hs
    match s with
    | [] => rw [genMapsAux_nil] at h; cases h; intro y hy; cases hy
    | fr :: rest =>
      have hfr : InvFrame w fr := hs fr (List.mem_cons_self fr rest)
      have hrest : ∀ g ∈ rest, InvFrame w g :=
        fun g hg => hs g (List.mem_cons_of_mem _ hg)
      have hyield : ∀ y ∈ frameYield na fr,
          chainOK 0 y.1 ∧ chainEnd 0 y.1 ≤ (w.length : Int) := by
        intro y hy
        have hy1 : y.1 = fr.rulemap := by
          rw [frameYield] at hy
          split at hy
          · cases hy
          · split at hy
            · cases List.mem_singleton.mp hy; rfl
            · cases hy
        obtain ⟨hok, hend, hptr, hlen⟩ := hfr
        rw [hy1]
        have hnn : (0 : Int) ≤ (fr.testWord.length : Int) := by positivity
        exact ⟨hok, by omega⟩
      rw [genMapsAux_cons] at h
      by_cases hemp : fr.testKeys.isEmpty
      · rw [if_pos hemp] at h
        rcases Option.map_eq_some'.mp h with ⟨p, hp, hpe⟩
        cases hpe
        intro y hy
        rcases List.mem_append.mp hy with hy | hy
        · exact hyield y hy
        · exact ih hp hrest y hy
      · rw [if_neg hemp] at h
        rcases Option.map_eq_some'.mp h with ⟨p, hp, hpe⟩
        cases hpe
        intro y hy
        rcases List.mem_append.mp hy with hy | hy
        · exact hyield y hy
        · refine ih hp ?_ y hy
          intro g hg
          rcases mem_expandStack hg with hgr | ⟨r, hr, rfl⟩
          · exact hrest g hgr
          · have hsome := hocc _ _ _ _ _ r hr
            rcases Option.isSome_iff_exists.mp hsome with ⟨i, hi⟩
            exact invFrame_mkChild hi hfr

/-! ### The demonstration repository satisfies the Matcher contract -/

theorem demoMatcher_good : GoodMatcher demoMatcher := by
  intro tk tw fk fw rm r hr
  rw [demoMatcher] at hr
  obtain ⟨hmem, hcond⟩ := List.mem_filter.mp hr
  simp only [Bool.and_eq_true, Bool.not_eq_true', List.all_eq_true] at hcond
  obtain ⟨⟨hne, hall⟩, hsome⟩ := hcond
  refine ⟨?_, ?_, hsome⟩
  · intro hnil
    rw [hnil] at hne
    simp at hne
  · intro key hkey
    have := hall key hkey
    simpa using this

theorem demoMatcher_occurs : OccursMatcher demoMatcher :=
  fun tk tw fk fw rm r hr => (demoMatcher_good tk tw fk fw rm r hr).2.2

end Spectra

namespace Spectra

/-! ### Global properties of the yielded results -/

theorem genMapsAux_yields_nonempty {m : Matcher} {na pr : Bool}
    {k : StenoKeys} {w : List Char} :
    ∀ {f b s o b'}, genMapsAux m na pr k w f b s = some (o, b') →
      ∀ y ∈ o, y.1 ≠ [] := by
  intro f
  induction f with
  | zero =>
    intro b s o b' h y hy
    match s with
    | [] => rw [genMapsAux_nil] at h; cases h; cases hy
    | fr :: rest => rw [genMapsAux_zero_cons] at h; cases h
  | succ f ih =>
    intro b s o b' h y hy
    match s with
    | [] => rw [genMapsAux_nil] at h; cases h; cases hy
    | fr :: rest =>
      have hfy : ∀ z ∈ frameYield na fr, z.1 ≠ ([] : List RuleMapItem) := by
        intro z hz
        rw [frameYield] at hz
        split at hz
        · cases hz
        · next hrm =>
          split at hz
          · cases List.mem_singleton.mp hz
            simpa using hrm
          · cases hz
      rw [genMapsAux_cons] at h
      by_cases hemp : fr.testKeys.isEmpty
      · rw [if_pos hemp] at h
        rcases Option.map_eq_some'.mp h with ⟨p, hp, hpe⟩
        cases hpe
        rcases List.mem_append.mp hy with hy | hy
        · exact hfy y hy
        · exact ih hp y hy
      · rw [if_neg hemp] at h
        rcases Option.map_eq_some'.mp h with ⟨p, hp, hpe⟩
        cases hpe
        rcases List.mem_append.mp hy with hy | hy
        · exact hfy y hy
        · exact ih hp y hy

theorem genMapsAux_yields_complete {m : Matcher} {pr : Bool}
    {k : StenoKeys} {w : List Char} :
    ∀ {f b s o b'}, genMapsAux m true pr k w f b s = some (o, b') →
      ∀ y ∈ o, y.2 = [] := by
  intro f
  induction f with
  | zero =>
    intro b s o b' h y hy
    match s with
    | [] => rw [genMapsAux_nil] at h; cases h; cases hy
    | fr :: rest => rw [genMapsAux_zero_cons] at h; cases h
  | succ f ih =>
    intro b s o b' h y hy
    match s with
    | [] => rw [genMapsAux_nil] at h; cases h; cases hy
    | fr :: rest =>
      have hfy : ∀ z ∈ frameYield true fr, z.2 = ([] : StenoKeys) := by
        intro z hz
        rw [frameYield] at hz
        split at hz
        · cases hz
        · split at hz
          · next hcond =>
            cases List.mem_singleton.mp hz
            simp only [Bool.not_true, Bool.or_false] at hcond
            exact List.isEmpty_iff.mp hcond
          · cases hz
      rw [genMapsAux_cons] at h
      by_cases hemp : fr.testKeys.isEmpty
      · rw [if_pos hemp] at h
        rcases Option.map_eq_some'.mp h with ⟨p, hp, hpe⟩
        cases hpe
        rcases List.mem_append.mp hy with hy | hy
        · exact hfy y hy
        · exact ih hp y hy
      · rw [if_neg hemp] at h
        rcases Option.map_eq_some'.mp h with ⟨p, hp, hpe⟩
        cases hpe
        rcases List.mem_append.mp hy with hy | hy
        · exact hfy y hy
        · exact ih hp y hy

/-! ### Selection facts -/

theorem foldl_pick_mem :
    ∀ (t : List LexerResult) (h : LexerResult), t.foldl pickBetter h ∈ h :: t := by
  intro t
  induction t with
  | nil => intro h; simp
  | cons x t ih =>
    intro h
    rw [List.foldl_cons]
    rcases List.mem_cons.mp (ih (pickBetter h x)) with he | hm
    · rw [he, pickBetter]
      split
      · exact List.mem_cons_of_mem _ (List.mem_cons_self x t)
      · exact List.mem_cons_self h (x :: t)
    · exact List.mem_cons_of_mem _ (List.mem_cons_of_mem _ hm)

/-! ### Fuel irrelevance lifted to the query façade -/

theorem generateMaps_mono_le {m : Matcher} {na pr : Bool} {f g : Nat}
    {k : StenoKeys} {w : List Char} {o : List Res} (hfg : f ≤ g)
    (h : generateMaps m na pr f k w = some o) :
    generateMaps m na pr g k w = some o := by
  rw [generateMaps] at h ⊢
  rcases Option.map_eq_some'.mp h with ⟨p, hp, hpe⟩
  rw [genMapsAux_mono_le hfg hp, Option.map_some', hpe]

theorem gatherResults_mono_le {m : Matcher} {na : Bool} {f g : Nat}
    {k w : List Char} {rs : List LexerResult} (hfg : f ≤ g)
    (h : gatherResults m na f k w = some rs) :
    gatherResults m na g k w = some rs := by
  rw [gatherResults] at h ⊢
  rcases Option.map_eq_some'.mp h with ⟨o, ho, hoe⟩
  rw [generateMaps_mono_le hfg ho, Option.map_some', hoe]

theorem query_mono_le {m : Matcher} {na : Bool} {f g : Nat}
    {k w : List Char} {d : Decomposition} (hfg : f ≤ g)
    (h : query m na f k w = some d) :
    query m na g k w = some d := by
  rw [query] at h ⊢
  rcases Option.map_eq_some'.mp h with ⟨rs, hrs, hre⟩
  rw [gatherResults_mono_le hfg hrs, Option.map_some', hre]

/-! ### `mapM` and `pyProduct` facts for the cross-product query -/

theorem mapM_mem {α β : Type} (f : α → Option β) :
    ∀ {l : List α} {out : List β}, l.mapM f = some out →
      ∀ y ∈ out, ∃ a ∈ l, f a = some y := by
  intro l
  induction l with
  | nil =>
    intro out h y hy
    rw [List.mapM_nil] at h
    cases h
    cases hy
  | cons a t ih =>
    intro out h y hy
    rw [List.mapM_cons] at h
    rcases Option.bind_eq_some.mp h with ⟨b, hb, h2⟩
    rcases Option.bind_eq_some.mp h2 with ⟨bs, hbs, h3⟩
    cases h3
    rcases List.mem_cons.mp hy with rfl | hmem
    · exact ⟨a, List.mem_cons_self a t, hb⟩
    · rcases ih hbs y hmem with ⟨a', ha', hfa'⟩
      exact ⟨a', List.mem_cons_of_mem _ ha', hfa'⟩

theorem pyProduct_cons (k1 : List Char) (kt : List (List Char))
    (w1 : List Char) (wt : List (List Char)) :
    pyProduct (k1 :: kt) (w1 :: wt) =
      (k1, w1) :: ((wt.map (fun w => (k1, w))) ++ pyProduct kt (w1 :: wt)) := by
  simp [pyProduct]

end Spectra

namespace Spectra

theorem chainOK_chain' :
    ∀ {lo : Int} {rm : List RuleMapItem}, chainOK lo rm →
      List.Chain' (fun a b : RuleMapItem =>
        a.start + (a.length : Int) ≤ b.start) rm := by
  intro lo rm
  induction rm generalizing lo with
  | nil => intro _; exact List.chain'_nil
  | cons a t ih =>
    intro hok
    obtain ⟨h1, h2⟩ := hok
    match t with
    | [] => simp
    | b :: t' => exact List.chain'_cons.mpr ⟨h2.1, ih h2⟩

/-- C4: for a fixed `need_all_keys` setting and identical inputs, the query
    is a pure function of its arguments: any two terminating evaluations
    (at any fuel) return the identical `Decomposition` — same rule map,
    same keys/word, same completeness status. -/
theorem query_deterministic (m : Matcher) (na : Bool) (f g : Nat)
    (k w : List Char) (d d' : Decomposition)
    (hf : query m na f k w = some d) (hg : query m na g k w = some d') :
    d = d' := by
  rcases le_total f g with hle | hle
  · have h2 := query_mono_le hle hf
    rw [hg] at h2
    exact (Option.some.inj h2).symm
  · have h2 := query_mono_le hle hg
    rw [hf] at h2
    exact Option.some.inj h2

/-- C4 witness: two runs of the demo repository at different fuel agree. -/
theorem query_deterministic_witness :
    query demoMatcher false 3 ['T'] ['t'] =
      some ⟨[⟨⟨['T'], ['t']⟩, 0, 1⟩], ['T'], ['t'], true, false⟩ ∧
    query demoMatcher false 4 ['T'] ['t'] =
      some ⟨[⟨⟨['T'], ['t']⟩, 0, 1⟩], ['T'], ['t'], true, false⟩ ∧
    (⟨[⟨⟨['T'], ['t']⟩, 0, 1⟩], ['T'], ['t'], true, false⟩ : Decomposition) =
      ⟨[⟨⟨['T'], ['t']⟩, 0, 1⟩], ['T'], ['t'], true, false⟩ :=
  ⟨rfl, rfl, query_deterministic demoMatcher false 3 4 ['T'] ['t'] _ _ rfl rfl⟩

/-- C7: under the Matcher contract (every candidate has a non-empty key set
    drawn from the remaining keys and a letter pattern occurring in the
    remaining word), the stack-based search loop of `_generate_maps`
    terminates: some finite fuel completes the run with a finite result
    list, and any larger fuel returns the same results. -/
theorem search_loop_terminates (m : Matcher) (hm : GoodMatcher m)
    (na pr : Bool) (k : StenoKeys) (w : List Char) :
    ∃ f o, generateMaps m na pr f k w = some o ∧
      ∀ g, f ≤ g → generateMaps m na pr g k w = some o := by
  obtain ⟨f, o, h⟩ := generateMaps_total hm na pr k w
  exact ⟨f, o, h, fun g hg => generateMaps_mono_le hg h⟩

/-- C7 witness: the demo repository satisfies the contract, and the search
    on `TEST → test` terminates. -/
theorem search_loop_terminates_witness :
    GoodMatcher demoMatcher ∧
      ∃ f o, generateMaps demoMatcher false true f ['T', 'E', 'S', 'T']
          ['t', 'e', 's', 't'] = some o ∧
        ∀ g, f ≤ g → generateMaps demoMatcher false true g ['T', 'E', 'S', 'T']
          ['t', 'e', 's', 't'] = some o :=
  ⟨demoMatcher_good,
    search_loop_terminates demoMatcher demoMatcher_good false true
      ['T', 'E', 'S', 'T'] ['t', 'e', 's', 't']⟩

/-- C8: when every Matcher candidate's letter pattern occurs in the frame's
    remaining word, every yielded rule map has all items inside the word
    (`0 ≤ start` and `start + length ≤ len word`) and the items form a
    chain of non-overlapping spans in nondecreasing offset order (each
    item's start is at least the previous item's start plus length). -/
theorem rulemap_items_in_bounds (m : Matcher) (hocc : OccursMatcher m)
    (na pr : Bool) (f : Nat) (k : StenoKeys) (w : List Char) (o : List Res)
    (h : generateMaps m na pr f k w = some o) :
    ∀ y ∈ o,
      (∀ it ∈ y.1, 0 ≤ it.start ∧
        it.start + (it.length : Int) ≤ (w.length : Int)) ∧
      List.Chain' (fun a b : RuleMapItem =>
        a.start + (a.length : Int) ≤ b.start) y.1 := by
  rw [generateMaps] at h
  rcases Option.map_eq_some'.mp h with ⟨p, hp, hpe⟩
  subst hpe
  have hinv : ∀ fr ∈ [(⟨k, w.map Char.toLower, 0, 0, []⟩ : Frame)],
      InvFrame w fr := by
    intro fr hfr
    cases List.mem_singleton.mp hfr
    refine ⟨trivial, le_refl 0, le_refl 0, ?_⟩
    simp [List.length_map]
  have hall := genMapsAux_yields_inv hocc hp hinv
  intro y hy
  obtain ⟨hok, hend⟩ := hall y hy
  refine ⟨fun it hit => chain_bounds hok hend it hit, chainOK_chain' hok⟩

/-- C8 witness: the single result of the demo search on `T → t` is in
    bounds. -/
theorem rulemap_items_in_bounds_witness :
    OccursMatcher demoMatcher ∧
    generateMaps demoMatcher false true 3 ['T'] ['t'] =
      some [([⟨⟨['T'], ['t']⟩, 0, 1⟩], [])] ∧
    ∀ y ∈ [(([⟨⟨['T'], ['t']⟩, 0, 1⟩], []) : Res)],
      (∀ it ∈ y.1, 0 ≤ it.start ∧
        it.start + (it.length : Int) ≤ ((['t'] : List Char).length : Int)) ∧
      List.Chain' (fun a b : RuleMapItem =>
        a.start + (a.length : Int) ≤ b.start) y.1 :=
  ⟨demoMatcher_occurs, rfl,
    rulemap_items_in_bounds demoMatcher demoMatcher_occurs false true 3
      ['T'] ['t'] _ rfl⟩

end Spectra

namespace Spectra

/-! ### Fallback behaviour of the query façade -/

theorem best_rule_nil (dflt : List Char × List Char) :
    best_rule [] dflt = mkFallback dflt.1 dflt.2 := rfl

theorem gatherResults_complete {m : Matcher} {f : Nat} {k w : List Char}
    {rs : List LexerResult} (h : gatherResults m true f k w = some rs) :
    ∀ res ∈ rs, res.testKeys = [] := by
  rw [gatherResults] at h
  rcases Option.map_eq_some'.mp h with ⟨o, ho, hoe⟩
  subst hoe
  rw [generateMaps] at ho
  rcases Option.map_eq_some'.mp ho with ⟨p, hp, hpe⟩
  subst hpe
  intro res hres
  rcases List.mem_map.mp hres with ⟨y, hy, rfl⟩
  exact genMapsAux_yields_complete hp y hy

theorem best_rule_fallback_or_complete {rs : List LexerResult}
    {dflt : List Char × List Char} (h : ∀ res ∈ rs, res.testKeys = []) :
    (best_rule rs dflt).isFallback = true ∨
      (best_rule rs dflt).complete = true := by
  match rs with
  | [] => exact Or.inl rfl
  | hd :: t =>
    right
    have hsel := foldl_pick_mem t hd
    have := h _ hsel
    rw [best_rule]
    show (t.foldl pickBetter hd).testKeys.isEmpty = true
    rw [this]
    rfl

/-- C3 counterexample: with both input iterables empty, the cross-product
    query does not return a fallback decomposition — the Python code
    evaluates `pairs[0]` on an empty list and raises `IndexError`, modelled
    here by the inner `none`. -/
theorem query_product_empty_raises :
    query_product demoMatcher false 3 [] [] = some none := rfl

/-- C3 (amended): a query that gathers zero candidate results returns the
    synthetic whole-span fallback rather than failing; for the
    cross-product query this holds provided both input iterables are
    non-empty (with an empty cross product the code raises `IndexError`
    on `pairs[0]` instead). -/
theorem zero_results_fallback :
    (∀ (m : Matcher) (na : Bool) (f : Nat) (k w : List Char),
        gatherResults m na f k w = some [] →
        query m na f k w = some (mkFallback k w)) ∧
    (∀ (m : Matcher) (na : Bool) (f : Nat) (k1 w1 : List Char)
        (kt wt : List (List Char)) (rss : List (List LexerResult)),
        (pyProduct (k1 :: kt) (w1 :: wt)).mapM
            (fun p => gatherResults m na f p.1 p.2) = some rss →
        ∃ d, query_product m na f (k1 :: kt) (w1 :: wt) = some (some d)) := by
  constructor
  · intro m na f k w h
    rw [query, h, Option.map_some', best_rule_nil]
  · intro m na f k1 w1 kt wt rss hmapM
    refine ⟨best_rule rss.flatten (k1, w1), ?_⟩
    rw [pyProduct_cons] at hmapM
    rw [query_product]
    simp only [pyProduct_cons, hmapM, Option.map_some']

/-- C3 witness: a single query with no matching rules gives the fallback,
    and a non-empty cross product returns a decomposition. -/
theorem zero_results_fallback_witness :
    (gatherResults demoMatcher false 3 ['X'] ['q'] = some []) ∧
    query demoMatcher false 3 ['X'] ['q'] = some (mkFallback ['X'] ['q']) ∧
    ((pyProduct [['T']] [['t']]).mapM
        (fun p => gatherResults demoMatcher false 3 p.1 p.2) =
      some [[⟨[⟨⟨['T'], ['t']⟩, 0, 1⟩], [], ['T'], ['t']⟩]]) ∧
    ∃ d, query_product demoMatcher false 3 [['T']] [['t']] = some (some d) :=
  ⟨rfl, zero_results_fallback.1 demoMatcher false 3 ['X'] ['q'] rfl, rfl,
    zero_results_fallback.2 demoMatcher false 3 ['T'] ['t'] [] [] _ rfl⟩

/-- C10: the fallback default of the cross-product query is always the
    first element of the cross product — the first keys string paired with
    the first word — so when no pair yields any candidate result, the
    returned decomposition is the fallback built from that first pair. -/
theorem product_fallback_first_pair (m : Matcher) (na : Bool) (f : Nat)
    (k1 w1 : List Char) (kt wt : List (List Char))
    (rss : List (List LexerResult))
    (hmapM : (pyProduct (k1 :: kt) (w1 :: wt)).mapM
        (fun p => gatherResults m na f p.1 p.2) = some rss)
    (hempty : ∀ rs ∈ rss, rs = []) :
    query_product m na f (k1 :: kt) (w1 :: wt) =
      some (some (mkFallback k1 w1)) := by
  have hflat : rss.flatten = [] := List.flatten_eq_nil_iff.mpr hempty
  rw [pyProduct_cons] at hmapM
  rw [query_product]
  simp only [pyProduct_cons, hmapM, Option.map_some']
  rw [hflat]
  rfl

/-- C10 witness: two pairs, no candidate results anywhere; the fallback is
    built from the first pair. -/
theorem product_fallback_first_pair_witness :
    ((pyProduct [['X'], ['Y']] [['q']]).mapM
        (fun p => gatherResults demoMatcher false 3 p.1 p.2) =
      some [[], []]) ∧
    (∀ rs ∈ [([] : List LexerResult), []], rs = []) ∧
    query_product demoMatcher false 3 [['X'], ['Y']] [['q']] =
      some (some (mkFallback ['X'] ['q'])) :=
  ⟨rfl, by decide,
    product_fallback_first_pair demoMatcher false 3 ['X'] ['q'] [['Y']] []
      [[], []] rfl (by decide)⟩

/-- C9: `query_all` sets the shared `need_all_keys` option to `True` and
    never restores it, although its configured default is `False`; any
    subsequent single or cross-product query on the resulting state runs in
    all-keys-required mode, so it returns either the fallback or a complete
    decomposition (partial rule maps are suppressed). -/
theorem query_all_sets_option (m : Matcher) (st : LexerState) (f : Nat)
    (items : List (List Char × List Char))
    (filterIn : List Char × List Char → Bool)
    (filterOut : Decomposition → Bool) :
    (query_all m st f items filterIn filterOut).2.need_all_keys = true ∧
    defaultLexerState.need_all_keys = false ∧
    (∀ st' : LexerState, st'.need_all_keys = true → ∀ g k w,
        queryWithState m st' g k w = query m true g k w) ∧
    (∀ (g : Nat) (k w : List Char) d, query m true g k w = some d →
        d.isFallback = true ∨ d.complete = true) ∧
    (∀ (g : Nat) (ks ws : List (List Char)) (d : Decomposition),
        query_product m true g ks ws = some (some d) →
        d.isFallback = true ∨ d.complete = true) := by
  refine ⟨rfl, rfl, ?_, ?_, ?_⟩
  · intro st' hst' g k w
    rw [queryWithState, hst']
  · intro g k w d hd
    rw [query] at hd
    rcases Option.map_eq_some'.mp hd with ⟨rs, hrs, hde⟩
    subst hde
    exact best_rule_fallback_or_complete (gatherResults_complete hrs)
  · intro g ks ws d hd
    rw [query_product] at hd
    rcases Option.map_eq_some'.mp hd with ⟨rss, hrss, hde⟩
    match hmatch : pyProduct ks ws, hde with
    | [], hde => exact absurd hde (by simp)
    | p0 :: rest, hde =>
      have hd' : best_rule rss.flatten (p0.1, p0.2) = d := by
        simpa using hde
      subst hd'
      refine best_rule_fallback_or_complete ?_
      intro res hres
      rcases List.mem_flatten.mp hres with ⟨rs, hrs, hmem⟩
      rcases mapM_mem _ hrss rs hrs with ⟨p, _, hp⟩
      exact gatherResults_complete hp res hmem

/-- C9 witness: a concrete bulk query leaves the option set. -/
theorem query_all_sets_option_witness :
    (query_all demoMatcher defaultLexerState 3 [(['T'], ['t'])]
        (fun _ => true) (fun _ => true)).2.need_all_keys = true ∧
    defaultLexerState.need_all_keys = false ∧
    (∀ st' : LexerState, st'.need_all_keys = true → ∀ g k w,
        queryWithState demoMatcher st' g k w = query demoMatcher true g k w) ∧
    (∀ (g : Nat) (k w : List Char) d, query demoMatcher true g k w = some d →
        d.isFallback = true ∨ d.complete = true) ∧
    (∀ (g : Nat) (ks ws : List (List Char)) (d : Decomposition),
        query_product demoMatcher true g ks ws = some (some d) →
        d.isFallback = true ∨ d.complete = true) :=
  query_all_sets_option demoMatcher defaultLexerState 3 [(['T'], ['t'])]
    (fun _ => true) (fun _ => true)

end Spectra

namespace Spectra

/-- C6: when a frame is popped, its rule map is yielded as a candidate
    result exactly when the map is non-empty, except that all-keys-required
    mode suppresses it when remaining keys are left; consequently every
    result of a `need_all_keys` run has an empty remaining key set and no
    run ever yields an empty rule map (in particular the initial frame is
    never yielded). -/
theorem yield_policy (m : Matcher) (na pr : Bool) (k : StenoKeys)
    (w : List Char) (f b : Nat) (fr : Frame) (rest : List Frame)
    (o : List Res) (b' : Nat)
    (h : genMapsAux m na pr k w (f + 1) b (fr :: rest) = some (o, b')) :
    (∃ o', o = frameYield na fr ++ o') ∧
    (fr.rulemap ≠ [] → (fr.testKeys = [] ∨ na = false) →
      frameYield na fr = [(fr.rulemap, fr.testKeys)]) ∧
    (fr.rulemap ≠ [] → na = true → fr.testKeys ≠ [] →
      frameYield na fr = []) ∧
    (fr.rulemap = [] → frameYield na fr = []) ∧
    (na = true → ∀ y ∈ o, y.2 = []) ∧
    (∀ y ∈ o, y.1 ≠ []) := by
  refine ⟨?_, ?_, ?_, ?_, ?_, ?_⟩
  · rw [genMapsAux_cons] at h
    by_cases hemp : fr.testKeys.isEmpty
    · rw [if_pos hemp] at h
      rcases Option.map_eq_some'.mp h with ⟨p, hp, hpe⟩
      cases hpe
      exact ⟨p.1, rfl⟩
    · rw [if_neg hemp] at h
      rcases Option.map_eq_some'.mp h with ⟨p, hp, hpe⟩
      cases hpe
      exact ⟨p.1, rfl⟩
  · intro hrm hcond
    have hrm' : fr.rulemap.isEmpty = false := by
      simpa [List.isEmpty_iff] using hrm
    rcases hcond with hk | hna
    · rw [frameYield, hrm']
      simp [hk]
    · rw [frameYield, hrm', hna]
      simp
  · intro hrm hna hk
    have hrm' : fr.rulemap.isEmpty = false := by
      simpa [List.isEmpty_iff] using hrm
    have hk' : fr.testKeys.isEmpty = false := by
      simpa [List.isEmpty_iff] using hk
    rw [frameYield, hrm', hna, hk']
    simp
  · intro hrm
    simp [frameYield, hrm]
  · intro hna y hy
    subst hna
    exact genMapsAux_yields_complete h y hy
  · exact genMapsAux_yields_nonempty h

/-- C6 witness: one step on the complete child frame over `T → t`. -/
theorem yield_policy_witness :
    genMapsAux demoMatcher true true ['T'] ['t'] (1 + 1) 0
        [⟨[], [], 1, 1, [⟨⟨['T'], ['t']⟩, 0, 1⟩]⟩] =
      some ([([⟨⟨['T'], ['t']⟩, 0, 1⟩], [])], 1) ∧
    ((∃ o', [(([⟨⟨['T'], ['t']⟩, 0, 1⟩], []) : Res)] =
        frameYield true ⟨[], [], 1, 1, [⟨⟨['T'], ['t']⟩, 0, 1⟩]⟩ ++ o') ∧
      ((⟨[], [], 1, 1, [⟨⟨['T'], ['t']⟩, 0, 1⟩]⟩ : Frame).rulemap ≠ [] →
        ((⟨[], [], 1, 1, [⟨⟨['T'], ['t']⟩, 0, 1⟩]⟩ : Frame).testKeys = [] ∨
          true = false) →
        frameYield true ⟨[], [], 1, 1, [⟨⟨['T'], ['t']⟩, 0, 1⟩]⟩ =
          [((⟨[], [], 1, 1, [⟨⟨['T'], ['t']⟩, 0, 1⟩]⟩ : Frame).rulemap,
            (⟨[], [], 1, 1, [⟨⟨['T'], ['t']⟩, 0, 1⟩]⟩ : Frame).testKeys)]) ∧
      ((⟨[], [], 1, 1, [⟨⟨['T'], ['t']⟩, 0, 1⟩]⟩ : Frame).rulemap ≠ [] →
        true = true →
        (⟨[], [], 1, 1, [⟨⟨['T'], ['t']⟩, 0, 1⟩]⟩ : Frame).testKeys ≠ [] →
        frameYield true ⟨[], [], 1, 1, [⟨⟨['T'], ['t']⟩, 0, 1⟩]⟩ = []) ∧
      ((⟨[], [], 1, 1, [⟨⟨['T'], ['t']⟩, 0, 1⟩]⟩ : Frame).rulemap = [] →
        frameYield true ⟨[], [], 1, 1, [⟨⟨['T'], ['t']⟩, 0, 1⟩]⟩ = []) ∧
      (true = true →
        ∀ y ∈ [(([⟨⟨['T'], ['t']⟩, 0, 1⟩], []) : Res)], y.2 = []) ∧
      (∀ y ∈ [(([⟨⟨['T'], ['t']⟩, 0, 1⟩], []) : Res)], y.1 ≠ [])) :=
  ⟨rfl,
    yield_policy demoMatcher true true ['T'] ['t'] 1 0
      ⟨[], [], 1, 1, [⟨⟨['T'], ['t']⟩, 0, 1⟩]⟩ []
      [(([⟨⟨['T'], ['t']⟩, 0, 1⟩], []) : Res)] 1 rfl⟩

/-- C5: for a popped frame with remaining keys, under the Matcher
    occurrence guarantee, the step pushes exactly one new frame per
    candidate that passes the `space_left` check (candidates with
    `space_left < i` are discarded), and each pushed frame has the rule
    map extended by `RuleMapItem(rule, wordptr + i, len(rule.letters))`,
    the keys `without(rule.keys)`, the word suffix after the matched span,
    and the pointer and letter count advanced by `i + len(rule.letters)`,
    where `i` is the first occurrence index of the rule's letters. -/
theorem expansion_step (m : Matcher) (na : Bool) (k : StenoKeys)
    (w : List Char) (f b : Nat) (fr : Frame) (rest : List Frame)
    (hk : fr.testKeys ≠ [])
    (hocc : ∀ r ∈ m fr.testKeys fr.testWord k w fr.rulemap,
      (findSub fr.testWord r.letters).isSome) :
    genMapsAux m na true k w (f + 1) b (fr :: rest) =
      (genMapsAux m na true k w f b
        ((((m fr.testKeys fr.testWord k w fr.rulemap).filter
            (keepCand true b fr)).map (mkChild fr)).reverse ++ rest)).map
        (fun p => (frameYield na fr ++ p.1, p.2)) ∧
    ∀ r ∈ m fr.testKeys fr.testWord k w fr.rulemap, ∃ i : Nat,
      findSub fr.testWord r.letters = some i ∧
      pyFind fr.testWord r.letters = (i : Int) ∧
      r.letters.isPrefixOf (fr.testWord.drop i) = true ∧
      (∀ j < i, r.letters.isPrefixOf (fr.testWord.drop j) = false) ∧
      mkChild fr r = ⟨StenoKeys.without fr.testKeys r.keys,
        fr.testWord.drop (r.letters.length + i),
        fr.wordptr + r.letters.length + i,
        fr.lc + r.letters.length,
        fr.rulemap ++ [⟨r, fr.wordptr + (i : Int), r.letters.length⟩]⟩ ∧
      (keepCand true b fr r = false ↔ spaceLeft b fr < (i : Int)) := by
  constructor
  · have hemp : fr.testKeys.isEmpty = false := by
      simpa [List.isEmpty_iff] using hk
    rw [genMapsAux_cons, hemp, expandStack_eq]
    simp
  · intro r hr
    rcases Option.isSome_iff_exists.mp (hocc r hr) with ⟨i, hi⟩
    have hpf : pyFind fr.testWord r.letters = (i : Int) := by
      rw [pyFind, hi]
    refine ⟨i, hi, hpf, findSub_isPrefixOf _ _ _ hi,
      findSub_first _ _ _ hi, mkChild_found hi, ?_⟩
    rw [keepCand, hpf]
    simp

/-- C5 witness: expanding the initial frame of `TE → te`. -/
theorem expansion_step_witness :
    ((⟨['T', 'E'], ['t', 'e'], 0, 0, []⟩ : Frame).testKeys ≠ []) ∧
    (∀ r ∈ demoMatcher (⟨['T', 'E'], ['t', 'e'], 0, 0, []⟩ : Frame).testKeys
        (⟨['T', 'E'], ['t', 'e'], 0, 0, []⟩ : Frame).testWord ['T', 'E']
        ['t', 'e'] (⟨['T', 'E'], ['t', 'e'], 0, 0, []⟩ : Frame).rulemap,
      (findSub (⟨['T', 'E'], ['t', 'e'], 0, 0, []⟩ : Frame).testWord
        r.letters).isSome) ∧
    (genMapsAux demoMatcher false true ['T', 'E'] ['t', 'e'] (4 + 1) 0
        [⟨['T', 'E'], ['t', 'e'], 0, 0, []⟩] =
      (genMapsAux demoMatcher false true ['T', 'E'] ['t', 'e'] 4 0
        ((((demoMatcher
              (⟨['T', 'E'], ['t', 'e'], 0, 0, []⟩ : Frame).testKeys
              (⟨['T', 'E'], ['t', 'e'], 0, 0, []⟩ : Frame).testWord
              ['T', 'E'] ['t', 'e']
              (⟨['T', 'E'], ['t', 'e'], 0, 0, []⟩ : Frame).rulemap).filter
            (keepCand true 0 ⟨['T', 'E'], ['t', 'e'], 0, 0, []⟩)).map
          (mkChild ⟨['T', 'E'], ['t', 'e'], 0, 0, []⟩)).reverse ++ [])).map
        (fun p =>
          (frameYield false ⟨['T', 'E'], ['t', 'e'], 0, 0, []⟩ ++ p.1,
            p.2)) ∧
      ∀ r ∈ demoMatcher (⟨['T', 'E'], ['t', 'e'], 0, 0, []⟩ : Frame).testKeys
          (⟨['T', 'E'], ['t', 'e'], 0, 0, []⟩ : Frame).testWord ['T', 'E']
          ['t', 'e'] (⟨['T', 'E'], ['t', 'e'], 0, 0, []⟩ : Frame).rulemap,
        ∃ i : Nat,
        findSub (⟨['T', 'E'], ['t', 'e'], 0, 0, []⟩ : Frame).testWord
          r.letters = some i ∧
        pyFind (⟨['T', 'E'], ['t', 'e'], 0, 0, []⟩ : Frame).testWord
          r.letters = (i : Int) ∧
        r.letters.isPrefixOf
          ((⟨['T', 'E'], ['t', 'e'], 0, 0, []⟩ : Frame).testWord.drop i) =
          true ∧
        (∀ j < i, r.letters.isPrefixOf
          ((⟨['T', 'E'], ['t', 'e'], 0, 0, []⟩ : Frame).testWord.drop j) =
          false) ∧
        mkChild (⟨['T', 'E'], ['t', 'e'], 0, 0, []⟩ : Frame) r =
          ⟨StenoKeys.without
              (⟨['T', 'E'], ['t', 'e'], 0, 0, []⟩ : Frame).testKeys r.keys,
            (⟨['T', 'E'], ['t', 'e'], 0, 0, []⟩ : Frame).testWord.drop
              (r.letters.length + i),
            (⟨['T', 'E'], ['t', 'e'], 0, 0, []⟩ : Frame).wordptr +
              r.letters.length + i,
            (⟨['T', 'E'], ['t', 'e'], 0, 0, []⟩ : Frame).lc +
              r.letters.length,
            (⟨['T', 'E'], ['t', 'e'], 0, 0, []⟩ : Frame).rulemap ++
              [⟨r, (⟨['T', 'E'], ['t', 'e'], 0, 0, []⟩ : Frame).wordptr +
                (i : Int), r.letters.length⟩]⟩ ∧
        (keepCand true 0 (⟨['T', 'E'], ['t', 'e'], 0, 0, []⟩ : Frame) r =
            false ↔
          spaceLeft 0 (⟨['T', 'E'], ['t', 'e'], 0, 0, []⟩ : Frame) <
            (i : Int))) :=
  ⟨by decide, by decide,
    expansion_step demoMatcher false ['T', 'E'] ['t', 'e'] 4 0
      ⟨['T', 'E'], ['t', 'e'], 0, 0, []⟩ [] (by decide) (by decide)⟩

end Spectra

namespace Spectra

/-! ### Toolkit for the pruning simulation -/

theorem Interleaved_mono {α : Type} {P Q : α → Prop} (h : ∀ y, P y → Q y) :
    ∀ {us ps : List α}, Interleaved P us ps → Interleaved Q us ps := by
  intro us ps hI
  induction hI with
  | nil => exact Interleaved.nil
  | keep y _ ih => exact Interleaved.keep y ih
  | extra y hy _ ih => exact Interleaved.extra y (h y hy) ih

theorem Interleaved_sublist {α : Type} {P : α → Prop} :
    ∀ {us ps : List α}, Interleaved P us ps → ps.Sublist us := by
  intro us ps hI
  induction hI with
  | nil => exact List.Sublist.refl []
  | keep y _ ih => exact ih.cons₂ y
  | extra y _ _ ih => exact ih.cons y

theorem phi_pruned {fr : Frame} {r : Rule} {i : Nat} {b : Nat}
    (hfind : findSub fr.testWord r.letters = some i)
    (hprune : spaceLeft b fr < (i : Int)) : phi (mkChild fr r) < b := by
  have h1 := phi_mkChild hfind
  rw [spaceLeft] at hprune
  have h2 : phi fr = fr.lc + fr.testWord.length := rfl
  omega

/-- Every `frameYield` is empty or the singleton on the frame's data. -/
theorem frameYield_cases (na : Bool) (fr : Frame) :
    frameYield na fr = [] ∨
      frameYield na fr = [(fr.rulemap, fr.testKeys)] := by
  rw [frameYield]
  split
  · exact Or.inl rfl
  · split
    · exact Or.inr rfl
    · exact Or.inl rfl

/-- A complete frame with a non-empty rule map is always yielded. -/
theorem frameYield_complete (na : Bool) {fr : Frame}
    (hk : fr.testKeys.isEmpty) (hrm : fr.rulemap ≠ []) :
    frameYield na fr = [(fr.rulemap, fr.testKeys)] := by
  rw [frameYield, if_neg (by simpa [List.isEmpty_iff] using hrm)]
  rw [if_pos (by simp [hk])]

/-- An empty yield on a complete frame forces an empty rule map. -/
theorem frameYield_nil_complete {na : Bool} {fr : Frame}
    (hk : fr.testKeys.isEmpty) (h : frameYield na fr = []) :
    fr.rulemap = [] := by
  by_cases hrm : fr.rulemap = []
  · exact hrm
  · rw [frameYield_complete na hk hrm] at h
    cases h

theorem StackRel_mono_b {b b' : Nat} (hb : b ≤ b') :
    ∀ {su sp : List Frame}, StackRel b su sp → StackRel b' su sp := by
  intro su sp h
  induction h with
  | nil => exact StackRel.nil
  | keep fr hwf _ ih => exact StackRel.keep fr hwf ih
  | drop fr hwf hphi _ ih => exact StackRel.drop fr hwf (by omega) ih

theorem StackRel_nil_left {b : Nat} {sp : List Frame}
    (h : StackRel b [] sp) : sp = [] := by
  cases h
  rfl

theorem StackRel_prepend_drops {b : Nat} :
    ∀ {cs : List Frame}, (∀ c ∈ cs, FrameWF c ∧ phi c < b) →
      ∀ {su sp : List Frame}, StackRel b su sp →
        StackRel b (cs ++ su) sp := by
  intro cs
  induction cs with
  | nil => intro _ _ _ h; exact h
  | cons c ct ih =>
    intro hc su sp h
    obtain ⟨hwf, hphi⟩ := hc c (List.mem_cons_self c ct)
    exact StackRel.drop c hwf hphi
      (ih (fun x hx => hc x (List.mem_cons_of_mem _ hx)) h)

theorem StackRel_expand {m : Matcher} {k : StenoKeys} {w : List Char}
    {fr : Frame} (hwf : FrameWF fr)
    (hocc : ∀ r ∈ m fr.testKeys fr.testWord k w fr.rulemap,
      (findSub fr.testWord r.letters).isSome)
    {b : Nat} {su sp : List Frame} (hrel : StackRel b su sp) :
    StackRel b (expandStack m false k w b fr su)
      (expandStack m true k w b fr sp) := by
  have main : ∀ (cs : List Rule),
      (∀ r ∈ cs, (findSub fr.testWord r.letters).isSome) →
      ∀ su sp, StackRel b su sp →
        StackRel b
          (cs.foldl (fun s r => if false && decide
              (spaceLeft b fr < pyFind fr.testWord r.letters)
            then s else mkChild fr r :: s) su)
          (cs.foldl (fun s r => if true && decide
              (spaceLeft b fr < pyFind fr.testWord r.letters)
            then s else mkChild fr r :: s) sp) := by
    intro cs
    induction cs with
    | nil => intro _ su sp h; exact h
    | cons r ct ih =>
      intro hoc su sp h
      simp only [List.foldl_cons]
      have hr := hoc r (List.mem_cons_self r ct)
      have hoc' : ∀ x ∈ ct, (findSub fr.testWord x.letters).isSome :=
        fun x hx => hoc x (List.mem_cons_of_mem _ hx)
      rcases Option.isSome_iff_exists.mp hr with ⟨i, hi⟩
      have hU : (if false && decide
            (spaceLeft b fr < pyFind fr.testWord r.letters)
          then su else mkChild fr r :: su) = mkChild fr r :: su := by
        simp
      rw [hU]
      by_cases hp : spaceLeft b fr < pyFind fr.testWord r.letters
      · have hP : (if true && decide
              (spaceLeft b fr < pyFind fr.testWord r.letters)
            then sp else mkChild fr r :: sp) = sp := by simp [hp]
        rw [hP]
        refine ih hoc' _ _ ?_
        refine StackRel.drop _ (wf_mkChild hi hwf) ?_ h
        refine phi_pruned hi ?_
        rwa [pyFind, hi] at hp
      · have hP : (if true && decide
              (spaceLeft b fr < pyFind fr.testWord r.letters)
            then sp else mkChild fr r :: sp) = mkChild fr r :: sp := by
          simp [hp]
        rw [hP]
        exact ih hoc' _ _ (StackRel.keep _ (wf_mkChild hi hwf) h)
  rw [expandStack, expandStack]
  exact main _ hocc su sp hrel

end Spectra

namespace Spectra

/-- The ranking key of a raw search result. -/
def resKey (y : Res) : Int ×ₗ Int ×ₗ Int := rankKey y.1 y.2

/-- A result strictly worse than any complete decomposition with `b`
    matched letters: it is partial, or it matched fewer than `b` letters. -/
def belowBest (b : Nat) (y : Res) : Prop :=
  y.2 ≠ [] ∨ mapLetters y.1 < b

/-- The predicate attached to yields dropped by pruning: dominated by a
    complete result of the pruning run, or strictly below the best
    letter count at the time of the drop. -/
def DomPred (b : Nat) (op : List Res) (y : Res) : Prop :=
  (∃ z ∈ op, z.2 = [] ∧ resKey y < resKey z) ∨ (0 < b ∧ belowBest b y)

theorem resKey_lt_of_below {b : Nat} {y z : Res} (hz2 : z.2 = [])
    (hzl : mapLetters z.1 = b) (hy : belowBest b y) :
    resKey y < resKey z := by
  have hz2' : z.2.isEmpty = true := by simp [hz2]
  by_cases hy2 : y.2.isEmpty
  · have hyl : mapLetters y.1 < b := by
      rcases hy with h | h
      · exact absurd (List.isEmpty_iff.mp hy2) h
      · exact h
    rw [resKey, resKey, rankKey, rankKey]
    simp only [hz2', hy2, if_true]
    rw [Prod.Lex.lt_iff]
    right
    refine ⟨rfl, ?_⟩
    rw [Prod.Lex.lt_iff]
    left
    simp only
    rw [hzl]
    exact_mod_cast hyl
  · rw [resKey, resKey, rankKey, rankKey]
    simp only [hz2', if_true, Bool.not_eq_true] at *
    simp only [hy2]
    rw [if_neg (by simp [hy2]), Prod.Lex.lt_iff]
    left
    norm_num

/-- C1/C2 simulation: the yields of the pruning run interleave into the
    yields of the exhaustive run, and every yield that pruning removed is
    dominated. -/
theorem sim {m : Matcher} {na : Bool} {k : StenoKeys} {w : List Char}
    (hocc : OccursMatcher m) :
    ∀ (fU : Nat) {b : Nat} {sU sP : List Frame} {oU : List Res} {bU : Nat}
      {fP : Nat} {oP : List Res} {bP : Nat},
      StackRel b sU sP →
      genMapsAux m na false k w fU b sU = some (oU, bU) →
      genMapsAux m na true k w fP b sP = some (oP, bP) →
      Interleaved (DomPred b oP) oU oP := by
  intro fU
  induction fU with
  | zero =>
    intro b sU sP oU bU fP oP bP hrel hU hP
    match sU, hU with
    | [], hU =>
      have hsp := StackRel_nil_left hrel
      subst hsp
      rw [genMapsAux_nil] at hU hP
      cases hU
      cases hP
      exact Interleaved.nil
    | fr :: sU', hU => rw [genMapsAux_zero_cons] at hU; cases hU
  | succ f ih =>
    intro b sU sP oU bU fP oP bP hrel hU hP
    match sU, hU with
    | [], hU =>
      have hsp := StackRel_nil_left hrel
      subst hsp
      rw [genMapsAux_nil] at hU hP
      cases hU
      cases hP
      exact Interleaved.nil
    | fr :: sU', hU =>
      cases hrel with
      | drop _ hwf hphi hrel' =>
        have hb0 : 0 < b := lt_of_le_of_lt (Nat.zero_le _) hphi
        have hlc : fr.lc ≤ phi fr := Nat.le_add_right _ _
        rw [genMapsAux_cons] at hU
        by_cases hemp : fr.testKeys.isEmpty
        · rw [if_pos hemp] at hU
          have hmax : max b fr.lc = b := Nat.max_eq_left (by omega)
          rw [hmax] at hU
          rcases Option.map_eq_some'.mp hU with ⟨p, hp, hpe⟩
          cases hpe
          have ihres := ih hrel' hp hP
          rcases frameYield_cases na fr with hfy | hfy
          · rw [hfy]
            simpa using ihres
          · rw [hfy]
            refine Interleaved.extra _ ?_ ihres
            right
            refine ⟨hb0, Or.inr ?_⟩
            show mapLetters fr.rulemap < b
            rw [FrameWF] at hwf
            omega
        · rw [if_neg hemp] at hU
          rcases Option.map_eq_some'.mp hU with ⟨p, hp, hpe⟩
          cases hpe
          have hrel2 : StackRel b (expandStack m false k w b fr sU') sP := by
            rw [expandStack_eq]
            refine StackRel_prepend_drops ?_ hrel'
            intro c hc
            rcases List.mem_reverse.mp hc with hc'
            rcases List.mem_map.mp hc' with ⟨r, hrmem, rfl⟩
            have hrc := (List.mem_filter.mp hrmem).1
            rcases Option.isSome_iff_exists.mp
              (hocc _ _ _ _ _ r hrc) with ⟨i, hi⟩
            refine ⟨wf_mkChild hi hwf, ?_⟩
            have := phi_mkChild hi
            omega
          have ihres := ih hrel2 hp hP
          rcases frameYield_cases na fr with hfy | hfy
          · rw [hfy]
            simpa using ihres
          · rw [hfy]
            refine Interleaved.extra _ ?_ ihres
            right
            refine ⟨hb0, Or.inl ?_⟩
            simpa [List.isEmpty_iff] using hemp
      | keep _ hwf hrel' =>
        rename_i sP'
        cases fP with
        | zero => rw [genMapsAux_zero_cons] at hP; cases hP
        | succ g =>
          rw [genMapsAux_cons] at hU hP
          by_cases hemp : fr.testKeys.isEmpty
          · rw [if_pos hemp] at hU hP
            rcases Option.map_eq_some'.mp hU with ⟨p, hp, hpe⟩
            cases hpe
            rcases Option.map_eq_some'.mp hP with ⟨q, hq, hqe⟩
            cases hqe
            have hrel2 : StackRel (max b fr.lc) sU' sP' :=
              StackRel_mono_b (Nat.le_max_left _ _) hrel'
            have ihres := ih hrel2 hp hq
            by_cases hbb : fr.lc ≤ b
            · have hmax : max b fr.lc = b := Nat.max_eq_left hbb
              rw [hmax] at ihres
              rcases frameYield_cases na fr with hfy | hfy
              · rw [hfy]
                simpa using ihres
              · rw [hfy]
                refine Interleaved.keep _ (Interleaved_mono ?_ ihres)
                intro y hy
                rcases hy with ⟨z, hz, hzp⟩ | hyb
                · exact Or.inl ⟨z, List.mem_cons_of_mem _ hz, hzp⟩
                · exact Or.inr hyb
            · have hlcb : b < fr.lc := Nat.lt_of_not_le hbb
              have hmax : max b fr.lc = fr.lc :=
                Nat.max_eq_right (le_of_lt hlcb)
              rw [hmax] at ihres
              have hrm : fr.rulemap ≠ [] := by
                intro hnil
                rw [FrameWF, hnil] at hwf
                simp [mapLetters] at hwf
                omega
              have hfy := frameYield_complete na hemp hrm
              rw [hfy]
              refine Interleaved.keep _ (Interleaved_mono ?_ ihres)
              intro y hy
              rcases hy with ⟨z, hz, hz2, hzk⟩ | ⟨_, hyb⟩
              · exact Or.inl ⟨z, List.mem_cons_of_mem _ hz, hz2, hzk⟩
              · left
                have hzl : mapLetters (fr.rulemap, fr.testKeys).1 = fr.lc := by
                  show mapLetters fr.rulemap = fr.lc
                  rw [FrameWF] at hwf
                  omega
                exact ⟨(fr.rulemap, fr.testKeys), List.mem_cons_self _ _,
                  List.isEmpty_iff.mp hemp,
                  resKey_lt_of_below (List.isEmpty_iff.mp hemp) hzl hyb⟩
          · rw [if_neg hemp] at hU hP
            rcases Option.map_eq_some'.mp hU with ⟨p, hp, hpe⟩
            cases hpe
            rcases Option.map_eq_some'.mp hP with ⟨q, hq, hqe⟩
            cases hqe
            have hoccfr : ∀ r ∈ m fr.testKeys fr.testWord k w fr.rulemap,
                (findSub fr.testWord r.letters).isSome :=
              fun r hr => hocc _ _ _ _ _ r hr
            have hrel2 := StackRel_expand hwf hoccfr hrel'
            have ihres := ih hrel2 hp hq
            rcases frameYield_cases na fr with hfy | hfy
            · rw [hfy]
              simpa using ihres
            · rw [hfy]
              refine Interleaved.keep _ (Interleaved_mono ?_ ihres)
              intro y hy
              rcases hy with ⟨z, hz, hzp⟩ | hyb
              · exact Or.inl ⟨z, List.mem_cons_of_mem _ hz, hzp⟩
              · exact Or.inr hyb

end Spectra

namespace Spectra

/-! ### The selection fold picks the first maximum, so dominated extras
    do not change it -/

/-- The ranking key of an optional running best (`⊥` before any result). -/
def keyO : Option LexerResult → WithBot (Int ×ₗ Int ×ₗ Int)
  | none => ⊥
  | some r => (r.key : WithBot (Int ×ₗ Int ×ₗ Int))

/-- The selection fold over an optional accumulator. -/
def pickO (acc : Option LexerResult) (x : LexerResult) : Option LexerResult :=
  match acc with
  | none => some x
  | some a => some (pickBetter a x)

/-- The largest ranking key occurring in a list. -/
def maxKeyList (l : List LexerResult) : WithBot (Int ×ₗ Int ×ₗ Int) :=
  l.foldl (fun mx r => max mx (r.key : WithBot (Int ×ₗ Int ×ₗ Int))) ⊥

theorem pickBetter_key (a x : LexerResult) :
    (pickBetter a x).key = max a.key x.key := by
  rw [pickBetter]
  split
  · next h => exact (max_eq_right (le_of_lt h)).symm
  · next h => exact (max_eq_left (le_of_not_lt h)).symm

theorem keyO_pickO (acc : Option LexerResult) (x : LexerResult) :
    keyO (pickO acc x) =
      max (keyO acc) (x.key : WithBot (Int ×ₗ Int ×ₗ Int)) := by
  cases acc with
  | none =>
    show (x.key : WithBot (Int ×ₗ Int ×ₗ Int)) = max ⊥ (x.key : WithBot _)
    exact (max_eq_right bot_le).symm
  | some a =>
    show ((pickBetter a x).key : WithBot (Int ×ₗ Int ×ₗ Int)) = _
    rw [pickBetter_key]
    exact_mod_cast rfl

theorem pickO_eq_some {acc : Option LexerResult} {y : LexerResult}
    (h : keyO acc < (y.key : WithBot (Int ×ₗ Int ×ₗ Int))) :
    pickO acc y = some y := by
  cases acc with
  | none => rfl
  | some a =>
    have h' : ((a.key : WithBot (Int ×ₗ Int ×ₗ Int)))
        < (y.key : WithBot (Int ×ₗ Int ×ₗ Int)) := h
    have hlt : a.key < y.key := by exact_mod_cast h'
    show some (pickBetter a y) = some y
    rw [pickBetter, if_pos hlt]

theorem pickO_eq_acc {acc : Option LexerResult} {y : LexerResult}
    (h : (y.key : WithBot (Int ×ₗ Int ×ₗ Int)) ≤ keyO acc) :
    pickO acc y = acc := by
  cases acc with
  | none => simp [keyO] at h
  | some a =>
    have h' : (y.key : WithBot (Int ×ₗ Int ×ₗ Int))
        ≤ ((a.key : WithBot (Int ×ₗ Int ×ₗ Int))) := h
    have hle : y.key ≤ a.key := by exact_mod_cast h'
    show some (pickBetter a y) = some a
    rw [pickBetter, if_neg (not_lt.mpr hle)]

theorem foldl_pickO_some :
    ∀ (t : List LexerResult) (a : LexerResult),
      t.foldl pickO (some a) = some (t.foldl pickBetter a) := by
  intro t
  induction t with
  | nil => intro a; rfl
  | cons x t ih => intro a; exact ih (pickBetter a x)

theorem foldl_pickO_none_cons (h : LexerResult) (t : List LexerResult) :
    (h :: t).foldl pickO none = some (t.foldl pickBetter h) := by
  rw [List.foldl_cons]
  exact foldl_pickO_some t h

theorem maxKeyList_aux :
    ∀ (l : List LexerResult) (a : WithBot (Int ×ₗ Int ×ₗ Int)),
      l.foldl (fun mx r => max mx (r.key : WithBot (Int ×ₗ Int ×ₗ Int))) a =
        max a (maxKeyList l) := by
  intro l
  induction l with
  | nil =>
    intro a
    exact (max_eq_left bot_le).symm
  | cons r t ih =>
    intro a
    rw [List.foldl_cons, ih]
    have hrt : maxKeyList (r :: t) =
        max (r.key : WithBot (Int ×ₗ Int ×ₗ Int)) (maxKeyList t) := by
      rw [maxKeyList, List.foldl_cons, ih]
      rw [max_eq_right (bot_le : ⊥ ≤ (r.key : WithBot (Int ×ₗ Int ×ₗ Int)))]
    rw [hrt, max_assoc]

theorem maxKeyList_cons (r : LexerResult) (t : List LexerResult) :
    maxKeyList (r :: t) =
      max (r.key : WithBot (Int ×ₗ Int ×ₗ Int)) (maxKeyList t) := by
  rw [maxKeyList, List.foldl_cons, maxKeyList_aux]
  rw [max_eq_right (bot_le : ⊥ ≤ (r.key : WithBot (Int ×ₗ Int ×ₗ Int)))]

theorem maxKeyList_ge {z : LexerResult} :
    ∀ {l : List LexerResult}, z ∈ l →
      (z.key : WithBot (Int ×ₗ Int ×ₗ Int)) ≤ maxKeyList l := by
  intro l
  induction l with
  | nil => intro h; cases h
  | cons r t ih =>
    intro h
    rw [maxKeyList_cons]
    rcases List.mem_cons.mp h with rfl | hmem
    · exact le_max_left _ _
    · exact le_trans (ih hmem) (le_max_right _ _)

theorem fold_pickO_eq {M : WithBot (Int ×ₗ Int ×ₗ Int)} :
    ∀ {oU oP : List LexerResult},
      Interleaved (fun y =>
        (y.key : WithBot (Int ×ₗ Int ×ₗ Int)) < M) oU oP →
      ∀ {accU accP : Option LexerResult},
        M ≤ max (keyO accP) (maxKeyList oP) →
        (accU = accP ∨ (keyO accP ≤ keyO accU ∧ keyO accU < M)) →
        oU.foldl pickO accU = oP.foldl pickO accP := by
  intro oU oP hI
  induction hI with
  | nil =>
    intro accU accP hM hacc
    rcases hacc with rfl | ⟨hle, hlt⟩
    · rfl
    · exfalso
      have hM' : M ≤ keyO accP := by
        rw [show maxKeyList [] = ⊥ from rfl, max_eq_left bot_le] at hM
        exact hM
      exact absurd (lt_of_lt_of_le hlt (le_trans hM' hle)) (lt_irrefl _)
  | keep y hI' ih =>
    intro accU accP hM hacc
    simp only [List.foldl_cons]
    refine ih ?_ ?_
    · rw [keyO_pickO, max_assoc]
      rw [maxKeyList_cons] at hM
      exact hM
    · rcases hacc with rfl | ⟨hle, hlt⟩
      · exact Or.inl rfl
      · by_cases hy : keyO accU < (y.key : WithBot (Int ×ₗ Int ×ₗ Int))
        · left
          rw [pickO_eq_some hy, pickO_eq_some (lt_of_le_of_lt hle hy)]
        · right
          have hky := le_of_not_lt hy
          rw [pickO_eq_acc hky]
          refine ⟨?_, hlt⟩
          rw [keyO_pickO]
          exact max_le hle hky
  | extra y hy hI' ih =>
    intro accU accP hM hacc
    simp only [List.foldl_cons]
    refine ih hM ?_
    rcases hacc with rfl | ⟨hle, hlt⟩
    · by_cases hyy : keyO accU < (y.key : WithBot (Int ×ₗ Int ×ₗ Int))
      · right
        rw [pickO_eq_some hyy]
        exact ⟨le_of_lt hyy, hy⟩
      · left
        rw [pickO_eq_acc (le_of_not_lt hyy)]
    · by_cases hyy : keyO accU < (y.key : WithBot (Int ×ₗ Int ×ₗ Int))
      · right
        rw [pickO_eq_some hyy]
        exact ⟨le_trans hle (le_of_lt hyy), hy⟩
      · right
        rw [pickO_eq_acc (le_of_not_lt hyy)]
        exact ⟨hle, hlt⟩

theorem best_rule_interleaved {oU oP : List LexerResult}
    {dflt : List Char × List Char}
    (hI : Interleaved (fun y => ∃ z ∈ oP, y.key < z.key) oU oP) :
    best_rule oU dflt = best_rule oP dflt := by
  have hI' : Interleaved (fun y =>
      (y.key : WithBot (Int ×ₗ Int ×ₗ Int)) < maxKeyList oP) oU oP := by
    refine Interleaved_mono ?_ hI
    intro y hy
    rcases hy with ⟨z, hz, hlt⟩
    exact lt_of_lt_of_le (by exact_mod_cast hlt) (maxKeyList_ge hz)
  have hstart : maxKeyList oP ≤ max (keyO none) (maxKeyList oP) :=
    le_max_right _ _
  have hfold := fold_pickO_eq hI' hstart (Or.inl rfl)
  cases oU with
  | nil =>
    cases oP with
    | nil => rfl
    | cons z t => cases hI'
  | cons h1 t1 =>
    cases oP with
    | nil =>
      rw [foldl_pickO_none_cons] at hfold
      simp [List.foldl_nil] at hfold
    | cons h2 t2 =>
      rw [foldl_pickO_none_cons, foldl_pickO_none_cons] at hfold
      have hsel := Option.some.inj hfold
      show toDecomp _ = toDecomp _
      rw [hsel]

theorem Interleaved_map {α β : Type} (f : α → β) {P : α → Prop} {Q : β → Prop}
    (hPQ : ∀ y, P y → Q (f y)) :
    ∀ {us ps : List α}, Interleaved P us ps →
      Interleaved Q (us.map f) (ps.map f) := by
  intro us ps hI
  induction hI with
  | nil => exact Interleaved.nil
  | keep y _ ih => exact Interleaved.keep (f y) ih
  | extra y hy _ ih => exact Interleaved.extra (f y) (hPQ y hy) ih

end Spectra

namespace Spectra

/-! ### Transfer between the two `need_all_keys` modes of the same run -/

theorem genMapsAux_isSome_na {m : Matcher} {na1 na2 pr : Bool}
    {k : StenoKeys} {w : List Char} :
    ∀ {f b s}, (genMapsAux m na1 pr k w f b s).isSome →
      (genMapsAux m na2 pr k w f b s).isSome := by
  intro f
  induction f with
  | zero =>
    intro b s h
    match s with
    | [] => rw [genMapsAux_nil]; rfl
    | fr :: rest => rw [genMapsAux_zero_cons] at h; cases h
  | succ f ih =>
    intro b s h
    match s with
    | [] => rw [genMapsAux_nil]; rfl
    | fr :: rest =>
      rw [genMapsAux_cons] at h ⊢
      by_cases hemp : fr.testKeys.isEmpty
      · rw [if_pos hemp] at h ⊢
        rw [Option.isSome_map'] at h ⊢
        exact ih h
      · rw [if_neg hemp] at h ⊢
        rw [Option.isSome_map'] at h ⊢
        exact ih h

theorem genMapsAux_true_of_some {m : Matcher} {pr : Bool} {k : StenoKeys}
    {w : List Char} {f b : Nat} {s : List Frame} {o : List Res} {b' : Nat}
    (h : genMapsAux m true pr k w f b s = some (o, b')) :
    ∃ oF, genMapsAux m false pr k w f b s = some (oF, b') ∧
      o = oF.filter (fun y => y.2.isEmpty) := by
  have hsome : (genMapsAux m false pr k w f b s).isSome :=
    @genMapsAux_isSome_na m true false pr k w f b s (by rw [h]; rfl)
  rcases Option.isSome_iff_exists.mp hsome with ⟨pF, hpF⟩
  have hpF' : genMapsAux m false pr k w f b s = some (pF.1, pF.2) := by
    rw [hpF]
  have := genMapsAux_needAll hpF'
  rw [h] at this
  have h1 := congrArg (fun z => (Option.map Prod.fst z).getD []) this
  have h2 := congrArg (fun z => (Option.map Prod.snd z).getD 0) this
  simp only [Option.map_some', Option.getD_some] at h1 h2
  exact ⟨pF.1, by rw [hpF, h2], h1⟩

/-- Every element of the larger interleaved list is kept or dominated. -/
theorem Interleaved_mem {α : Type} {P : α → Prop} :
    ∀ {us ps : List α}, Interleaved P us ps →
      ∀ y ∈ us, y ∈ ps ∨ P y := by
  intro us ps hI
  induction hI with
  | nil => intro y hy; cases hy
  | keep z hI' ih =>
    intro y hy
    rcases List.mem_cons.mp hy with rfl | hmem
    · exact Or.inl (List.mem_cons_self _ _)
    · rcases ih y hmem with h | h
      · exact Or.inl (List.mem_cons_of_mem _ h)
      · exact Or.inr h
  | extra z hz hI' ih =>
    intro y hy
    rcases List.mem_cons.mp hy with rfl | hmem
    · exact Or.inr hz
    · exact ih y hmem

/-- The initial frame is well-formed and related to itself. -/
theorem StackRel_init (k : StenoKeys) (w : List Char) :
    StackRel 0 [(⟨k, w.map Char.toLower, 0, 0, []⟩ : Frame)]
      [(⟨k, w.map Char.toLower, 0, 0, []⟩ : Frame)] :=
  StackRel.keep _ (by simp [FrameWF, mapLetters]) StackRel.nil

/-- Modelled from the spec ("pruning transparency"): `_gather_results` with
    the `space_left` pruning check removed from the search. -/
def gatherResultsExhaustive (m : Matcher) (needAll : Bool) (fuel : Nat)
    (keys word : List Char) : Option (List LexerResult) :=
  let ck := StenoKeys.cleanse_from_rtfcre keys
  (generateMaps m needAll false fuel ck word).map
    (fun rs => rs.map (fun y => ⟨y.1, y.2, ck, word⟩))

/-- Modelled from the spec ("pruning transparency"): `query` over the
    exhaustive (unpruned) search. -/
def queryExhaustive (m : Matcher) (needAll : Bool) (fuel : Nat)
    (keys word : List Char) : Option Decomposition :=
  (gatherResultsExhaustive m needAll fuel keys word).map
    (fun rs => best_rule rs (keys, word))

end Spectra

namespace Spectra

/-- C2: for any repository satisfying the Matcher occurrence contract,
    disabling the `space_left` pruning check (exhaustive search) and
    re-ranking selects the same best Decomposition as with pruning
    enabled — pruning affects performance, not the selected result. -/
theorem pruning_transparent (m : Matcher) (hocc : OccursMatcher m)
    (na : Bool) (fU fP : Nat) (k w : List Char) (dU dP : Decomposition)
    (hU : queryExhaustive m na fU k w = some dU)
    (hP : query m na fP k w = some dP) : dU = dP := by
  rw [queryExhaustive] at hU
  rcases Option.map_eq_some'.mp hU with ⟨rsU, hrsU, hdU⟩
  rw [query] at hP
  rcases Option.map_eq_some'.mp hP with ⟨rsP, hrsP, hdP⟩
  subst hdU
  subst hdP
  rw [gatherResultsExhaustive] at hrsU
  rcases Option.map_eq_some'.mp hrsU with ⟨oU, hoU, hrsU'⟩
  subst hrsU'
  rw [gatherResults] at hrsP
  rcases Option.map_eq_some'.mp hrsP with ⟨oP, hoP, hrsP'⟩
  subst hrsP'
  rw [generateMaps] at hoU hoP
  rcases Option.map_eq_some'.mp hoU with ⟨pU, hpU, hoU'⟩
  subst hoU'
  rcases Option.map_eq_some'.mp hoP with ⟨pP, hpP, hoP'⟩
  subst hoP'
  have hpU' : genMapsAux m na false (StenoKeys.cleanse_from_rtfcre k) w fU 0
      [⟨StenoKeys.cleanse_from_rtfcre k, w.map Char.toLower, 0, 0, []⟩]
      = some (pU.1, pU.2) := by rw [hpU]
  have hpP' : genMapsAux m na true (StenoKeys.cleanse_from_rtfcre k) w fP 0
      [⟨StenoKeys.cleanse_from_rtfcre k, w.map Char.toLower, 0, 0, []⟩]
      = some (pP.1, pP.2) := by rw [hpP]
  have hsim := sim hocc fU
    (StackRel_init (StenoKeys.cleanse_from_rtfcre k) w) hpU' hpP'
  have hI : Interleaved (fun y : LexerResult =>
      ∃ z ∈ pP.1.map (fun y : Res =>
        (⟨y.1, y.2, StenoKeys.cleanse_from_rtfcre k, w⟩ : LexerResult)),
          y.key < z.key)
      (pU.1.map (fun y : Res =>
        (⟨y.1, y.2, StenoKeys.cleanse_from_rtfcre k, w⟩ : LexerResult)))
      (pP.1.map (fun y : Res =>
        (⟨y.1, y.2, StenoKeys.cleanse_from_rtfcre k, w⟩ : LexerResult))) := by
    refine Interleaved_map _ ?_ hsim
    intro y hy
    rcases hy with ⟨z, hz, hz2, hzk⟩ | ⟨h0, _⟩
    · exact ⟨⟨z.1, z.2, StenoKeys.cleanse_from_rtfcre k, w⟩,
        List.mem_map_of_mem _ hz, hzk⟩
    · exact absurd h0 (lt_irrefl 0)
  exact best_rule_interleaved hI

/-- C2 witness: pruned and exhaustive queries agree on the demo input. -/
theorem pruning_transparent_witness :
    OccursMatcher demoMatcher ∧
    queryExhaustive demoMatcher false 5 ['T', 'E'] ['t', 'e'] =
      some ⟨[⟨⟨['T'], ['t']⟩, 0, 1⟩, ⟨⟨['E'], ['e']⟩, 1, 1⟩],
        ['T', 'E'], ['t', 'e'], true, false⟩ ∧
    query demoMatcher false 6 ['T', 'E'] ['t', 'e'] =
      some ⟨[⟨⟨['T'], ['t']⟩, 0, 1⟩, ⟨⟨['E'], ['e']⟩, 1, 1⟩],
        ['T', 'E'], ['t', 'e'], true, false⟩ ∧
    (⟨[⟨⟨['T'], ['t']⟩, 0, 1⟩, ⟨⟨['E'], ['e']⟩, 1, 1⟩],
        ['T', 'E'], ['t', 'e'], true, false⟩ : Decomposition) =
      ⟨[⟨⟨['T'], ['t']⟩, 0, 1⟩, ⟨⟨['E'], ['e']⟩, 1, 1⟩],
        ['T', 'E'], ['t', 'e'], true, false⟩ :=
  ⟨demoMatcher_occurs, rfl, rfl,
    pruning_transparent demoMatcher demoMatcher_occurs false 5 6
      ['T', 'E'] ['t', 'e'] _ _ rfl rfl⟩

/-- C1: if the exhaustive search space over the cleansed keys contains a
    complete decomposition (a candidate whose remaining keys are empty,
    i.e. whose used keys equal the full cleansed key set), then `query`
    with `need_all_keys` on returns a complete, non-fallback
    Decomposition; if it contains none, `query` returns the synthetic
    fallback built from the original keys and word. -/
theorem completeness_guarantee (m : Matcher) (hocc : OccursMatcher m)
    (fU fP : Nat) (k w : List Char) (oU : List Res) (d : Decomposition)
    (hU : generateMaps m false false fU
      (StenoKeys.cleanse_from_rtfcre k) w = some oU)
    (hq : query m true fP k w = some d) :
    ((∃ y ∈ oU, y.2 = []) → d.isFallback = false ∧ d.complete = true) ∧
    ((¬ ∃ y ∈ oU, y.2 = []) → d = mkFallback k w) := by
  rw [query] at hq
  rcases Option.map_eq_some'.mp hq with ⟨rs, hrs, hd⟩
  subst hd
  have hcomp := gatherResults_complete hrs
  rw [gatherResults] at hrs
  rcases Option.map_eq_some'.mp hrs with ⟨oPT, hoPT, hrs'⟩
  subst hrs'
  rw [generateMaps] at hoPT hU
  rcases Option.map_eq_some'.mp hoPT with ⟨pPT, hpPT, hoPT'⟩
  subst hoPT'
  rcases Option.map_eq_some'.mp hU with ⟨pU, hpU, hoU'⟩
  subst hoU'
  have hpPT' : genMapsAux m true true (StenoKeys.cleanse_from_rtfcre k) w fP 0
      [⟨StenoKeys.cleanse_from_rtfcre k, w.map Char.toLower, 0, 0, []⟩]
      = some (pPT.1, pPT.2) := by rw [hpPT]
  obtain ⟨oPF, hoPF, hfilter⟩ := genMapsAux_true_of_some hpPT'
  have hpU' : genMapsAux m false false (StenoKeys.cleanse_from_rtfcre k) w fU 0
      [⟨StenoKeys.cleanse_from_rtfcre k, w.map Char.toLower, 0, 0, []⟩]
      = some (pU.1, pU.2) := by rw [hpU]
  have hsim := sim hocc fU
    (StackRel_init (StenoKeys.cleanse_from_rtfcre k) w) hpU' hoPF
  constructor
  · intro hex
    rcases hex with ⟨y, hy, hy2⟩
    have hzP : ∃ z ∈ oPF, z.2 = [] := by
      rcases Interleaved_mem hsim y hy with hmem | hdom
      · exact ⟨y, hmem, hy2⟩
      · rcases hdom with ⟨z, hz, hz2, _⟩ | ⟨h0, _⟩
        · exact ⟨z, hz, hz2⟩
        · exact absurd h0 (lt_irrefl 0)
    rcases hzP with ⟨z, hzmem, hz2⟩
    have hzT : z ∈ pPT.1 := by
      rw [hfilter, List.mem_filter]
      exact ⟨hzmem, by simp [hz2]⟩
    cases hlist : pPT.1.map (fun y : Res =>
        (⟨y.1, y.2, StenoKeys.cleanse_from_rtfcre k, w⟩ : LexerResult)) with
    | nil =>
      exfalso
      have hnil := List.map_eq_nil_iff.mp hlist
      rw [hnil] at hzT
      cases hzT
    | cons h1 t1 =>
      rw [best_rule]
      have hmem : t1.foldl pickBetter h1 ∈ pPT.1.map (fun y : Res =>
          (⟨y.1, y.2, StenoKeys.cleanse_from_rtfcre k, w⟩ : LexerResult)) := by
        rw [hlist]
        exact foldl_pick_mem t1 h1
      refine ⟨rfl, ?_⟩
      show (t1.foldl pickBetter h1).testKeys.isEmpty = true
      rw [hcomp _ hmem]
      rfl
  · intro hnex
    have hPFnone : ∀ z ∈ oPF, z.2 ≠ [] := by
      intro z hz hz2
      exact hnex ⟨z, (Interleaved_sublist hsim).mem hz, hz2⟩
    have hTnil : pPT.1 = [] := by
      rw [hfilter, List.filter_eq_nil_iff]
      intro a ha
      simp only [List.isEmpty_iff]
      exact hPFnone a ha
    rw [hTnil]
    rfl

end Spectra

namespace Spectra

/-- C1 witness: the demo search space on `T → t` contains a complete
    decomposition and the all-keys query returns it. -/
theorem completeness_guarantee_witness :
    OccursMatcher demoMatcher ∧
    generateMaps demoMatcher false false 3
        (StenoKeys.cleanse_from_rtfcre ['T']) ['t'] =
      some [(([⟨⟨['T'], ['t']⟩, 0, 1⟩], []) : Res)] ∧
    query demoMatcher true 3 ['T'] ['t'] =
      some ⟨[⟨⟨['T'], ['t']⟩, 0, 1⟩], ['T'], ['t'], true, false⟩ ∧
    (((∃ y ∈ [(([⟨⟨['T'], ['t']⟩, 0, 1⟩], []) : Res)], y.2 = []) →
        (⟨[⟨⟨['T'], ['t']⟩, 0, 1⟩], ['T'], ['t'], true, false⟩
          : Decomposition).isFallback = false ∧
        (⟨[⟨⟨['T'], ['t']⟩, 0, 1⟩], ['T'], ['t'], true, false⟩
          : Decomposition).complete = true) ∧
      ((¬ ∃ y ∈ [(([⟨⟨['T'], ['t']⟩, 0, 1⟩], []) : Res)], y.2 = []) →
        (⟨[⟨⟨['T'], ['t']⟩, 0, 1⟩], ['T'], ['t'], true, false⟩
          : Decomposition) = mkFallback ['T'] ['t'])) :=
  ⟨demoMatcher_occurs, rfl, rfl,
    completeness_guarantee demoMatcher demoMatcher_occurs 3 3 ['T'] ['t']
      _ _ rfl rfl⟩

end Spectra
